import Mathlib

/-!
Verification of the core engines of the tmux-copyrat repository against its
specification: the hint alphabet generator (src/alphabets.rs), the span
extractor (src/textbuf/model.rs), the hint lookup trie
(src/textbuf/model.rs), and the interactive key loop and renderer offsets
(src/ui/vc.rs).

Strings from the Rust side are embedded as `List Char`; Rust `usize`
arithmetic is embedded as `Nat`, with the one subtraction that can underflow
(a Rust panic/overflow error) embedded as a checked subtraction returning
`Option`.
-/

namespace Copyrat

/-! ### Alphabet catalog and hint generation (src/alphabets.rs) -/

/-- Catalog of available alphabets, from the `ALPHABETS` constant in
src/alphabets.rs. -/
def ALPHABETS : List (String × String) := [
  ("qwerty", "asdfqwerzxcvjklmiuopghtybn"),
  ("qwerty-homerow", "asdfjklgh"),
  ("qwerty-left-hand", "asdfqwerzcxv"),
  ("qwerty-right-hand", "jkluiopmyhn"),
  ("azerty", "qsdfazerwxcvjklmuiopghtybn"),
  ("azerty-homerow", "qsdfjkmgh"),
  ("azerty-left-hand", "qsdfazerwxcv"),
  ("azerty-right-hand", "jklmuiophyn"),
  ("qwertz", "asdfqweryxcvjkluiopmghtzbn"),
  ("qwertz-homerow", "asdfghjkl"),
  ("qwertz-left-hand", "asdfqweryxcv"),
  ("qwertz-right-hand", "jkluiopmhzn"),
  ("dvorak", "aoeuqjkxpyhtnsgcrlmwvzfidb"),
  ("dvorak-homerow", "aoeuhtnsid"),
  ("dvorak-left-hand", "aoeupqjkyix"),
  ("dvorak-right-hand", "htnsgcrlmwvz"),
  ("colemak", "arstqwfpzxcvneioluymdhgjbk"),
  ("colemak-homerow", "arstneiodh"),
  ("colemak-left-hand", "arstqwfpzxcv"),
  ("colemak-right-hand", "neioluymjhk"),
  ("longest", "aoeuqjkxpyhtnsgcrlmwvzfidb-;,~<>'@!#$%^&*~1234567890")]

/-- Embedding of `parse_alphabet`: look up the name in the catalog and remove
the letters `n`, `N`, `y`, `Y` (reserved for navigation and yank keys). -/
def parseAlphabet (src : String) : Option (List Char) :=
  (ALPHABETS.lookup src).map
    (fun letters => letters.toList.filter (fun c => !(c ∈ ['n', 'N', 'y', 'Y'])))

/-- The letters of the `longest` alphabet after the `n`/`N`/`y`/`Y` removal,
as used by the fallback inside `make_hints`
(`parse_alphabet("longest").unwrap()`). -/
def longestLetters : List Char := (parseAlphabet ("longest")).getD []

/-- Embedding of the `loop` inside `Alphabet::make_hints`
(src/alphabets.rs lines 103-122).  `lead` is the vector of candidate
one-letter hints from which the rightmost is popped; `prev` accumulates the
generated two-letter hints, newest block in front.  Every iteration pops one
letter from `lead`, so the loop runs at most `lead.length` times; `fuel`
counts these iterations so that the recursion is structural (when `fuel`
reaches `0` the lead is already empty, and both exits return `(lead, prev)`
exactly as the Rust loop does). -/
def hintsLoopAux (letters : List Char) (n : Nat) :
    Nat → List Char → List (List Char) → List Char × List (List Char)
  | 0, lead, prev => (lead, prev)
  | fuel + 1, lead, prev =>
    if lead.length + prev.length ≥ n then (lead, prev)
    else
      match hl : lead with
      | [] => (lead, prev)
      | _ :: _ =>
        let p := lead.getLast (by simp [hl])
        let lead2 := lead.dropLast
        let gen := (letters.take (n - lead2.length - prev.length)).map
          (fun c => [p, c])
        hintsLoopAux letters n fuel lead2 (gen ++ prev)

/-- The generation loop of `Alphabet::make_hints`, started with enough fuel
for all its iterations. -/
def hintsLoop (letters : List Char) (n : Nat) (lead : List Char)
    (prev : List (List Char)) : List Char × List (List Char) :=
  hintsLoopAux letters n lead.length lead prev

/-- Embedding of the part of `Alphabet::make_hints` that runs after the
letter list has been selected: the generation loop, then the concatenation
`[lead, prev, filler].concat()`.  The filler count
`n - lead.len() - prev.len()` is a Rust `usize` subtraction; when it
underflows (a Rust panic/overflow error) the embedding returns `none`. -/
def makeHintsCore (letters : List Char) (n : Nat) : Option (List (List Char)) :=
  let lp := hintsLoop letters n letters []
  if lp.1.length + lp.2.length ≤ n then
    some ((lp.1.map (fun c => [c])) ++ lp.2 ++
      List.replicate (n - lp.1.length - lp.2.length) [])
  else none

/-- Embedding of `Alphabet::make_hints` (src/alphabets.rs lines 85-134): the
`n ≤ m` shortcut, the `m² ≥ n` letter selection with the fallback to the
`longest` alphabet, then the generation loop and final concatenation. -/
def makeHints (a : List Char) (n : Nat) : Option (List (List Char)) :=
  if a.length ≥ n then some ((a.take n).map (fun c => [c]))
  else
    let letters := if a.length ^ 2 ≥ n then a else longestLetters
    makeHintsCore letters n

/-- The letter list effectively used by `make_hints` for a given input. -/
def hintLetters (a : List Char) (n : Nat) : List Char :=
  if a.length ≥ n then a
  else if a.length ^ 2 ≥ n then a else longestLetters

/-- Hint `a` is a strict prefix of hint `b`. -/
def StrictLeads (a b : List Char) : Prop :=
  a.length < b.length ∧ b.take a.length = a

instance (a b : List Char) : Decidable (StrictLeads a b) := by
  unfold StrictLeads; infer_instance

/-- No non-empty hint of the list is a strict prefix of another hint of the
list (empty padding hints are ignored). -/
def UnambiguousHints (l : List (List Char)) : Prop :=
  ∀ a ∈ l, ∀ b ∈ l, a ≠ [] → ¬ StrictLeads a b

/-- Letters of the `qwerty-homerow` catalog alphabet (none of the reserved
letters occur in it, so the removal keeps all nine letters). -/
def qwertyHomerow : List Char := (parseAlphabet ("qwerty-homerow")).getD []

/-! ### Span extractor (src/textbuf/model.rs, `Model::raw_matches`)

The regex engine itself is out of scope of the repository (it is the `regex`
crate), so a compiled regex is embedded abstractly by its observable
behaviour in `raw_matches`: `findFirst chunk` is the `(start, end)` byte
range of the regex's first (leftmost) match on a chunk
(`regex.find_iter(chunk).next()`), and `capture1 text` is the byte range of
capture group 1 when the regex is re-run on the matched text
(`pattern.captures(text)` followed by `captures.get(1)`). -/

/-- An abstract compiled regex with its pattern name, as paired in the
`all_regexes` vector of `Model::raw_matches`. -/
structure RPattern where
  name : String
  findFirst : List Char → Option (Nat × Nat)
  capture1 : List Char → Option (Nat × Nat)

/-- One entry of the `chunk_matches` vector: a pattern that matched the
chunk, together with its position `idx` in the regex list (recorded to state
the tie-breaking order) and the `(start, end)` range of its first match. -/
structure Cand where
  idx : Nat
  pat : RPattern
  s : Nat
  e : Nat

/-- Embedding of the `chunk_matches` vector: every regex's first match on the
chunk, in regex-list order (`filter_map` over `all_regexes`). -/
def chunkMatches (regexes : List RPattern) (chunk : List Char) : List Cand :=
  regexes.enum.filterMap
    (fun ip => (ip.2.findFirst chunk).map (fun se => ⟨ip.1, ip.2, se.1, se.2⟩))

/-- One step of Rust's `Iterator::min_by` on match start offsets: the
accumulator is replaced only on a strictly smaller start, so that among equal
minima the earlier element is kept. -/
def pickMinStep (acc : Option Cand) (c : Cand) : Option Cand :=
  match acc with
  | none => some c
  | some a => if c.s < a.s then some c else some a

/-- Embedding of Rust's `Iterator::min_by` on match start offsets. -/
def pickMin (l : List Cand) : Option Cand :=
  l.foldl pickMinStep none

/-- Selection of the earliest match on the chunk
(`chunk_matches.iter().min_by(...)` in `Model::raw_matches`). -/
def selectMatch (regexes : List RPattern) (chunk : List Char) : Option Cand :=
  pickMin (chunkMatches regexes chunk)

/-- Embedding of `RawMatch` (src/textbuf/raw_match.rs): matched text and its
location, before a hint is associated. -/
structure RawSpan where
  x : Nat
  y : Nat
  pattern : String
  text : List Char
  deriving DecidableEq

/-- The `text` local of the extraction loop: the selected match's substring
of the chunk (`matching.as_str()`). -/
def matchedText (chunk : List Char) (c : Cand) : List Char :=
  (chunk.drop c.s).take (c.e - c.s)

/-- The `(subtext, substart)` locals of the extraction loop: capture group 1
when present, otherwise the whole matched text at offset `0`. -/
def subMatch (chunk : List Char) (c : Cand) : List Char × Nat :=
  match c.pat.capture1 (matchedText chunk c) with
  | some cse =>
    (((matchedText chunk c).drop cse.1).take (cse.2 - cse.1), cse.1)
  | none => (matchedText chunk c, 0)

/-- Embedding of the per-line `loop` of `Model::raw_matches`
(src/textbuf/model.rs lines 114-158).  The Rust loop is not structurally
terminating (a regex matching the empty string stops the chunk from
shrinking), so the embedding consumes one unit of `fuel` per iteration and
returns `none` when fuel runs out while matches remain: a `none` result for
every fuel value means the Rust loop diverges. -/
def rawMatchesLine (regexes : List RPattern) :
    Nat → List Char → Nat → Nat → Option (List RawSpan)
  | 0, _, _, _ => none
  | fuel + 1, chunk, offset, y =>
    match selectMatch regexes chunk with
    | none => some []
    | some c =>
      match rawMatchesLine regexes fuel (chunk.drop c.e) (offset + c.e) y with
      | none => none
      | some rest =>
        if c.pat.name = "ansi_colors" then some rest
        else
          some (⟨offset + c.s + (subMatch chunk c).2, y, c.pat.name,
            (subMatch chunk c).1⟩ :: rest)

/-- Embedding of the `all_regexes` assembly in `Model::raw_matches`
(src/textbuf/model.rs lines 75-103): exclusion patterns, then custom
patterns, then either the whole catalog or the selected named patterns. -/
def effectiveRegexes (excludeRs customRs catalogRs selectedRs : List RPattern)
    (useAll : Bool) : List RPattern :=
  excludeRs ++ customRs ++ (if useAll then catalogRs else selectedRs)

/-- Well-formedness of a regex list: every first match is non-empty and lies
within the chunk.  This holds for every catalog pattern of
src/textbuf/regexes.rs (none of them can match the empty string) but can
fail for a user-supplied custom regex. -/
def MatchesWF (regexes : List RPattern) : Prop :=
  ∀ p ∈ regexes, ∀ chunk s e, p.findFirst chunk = some (s, e) →
    s < e ∧ e ≤ chunk.length

/-- Well-formedness of capture groups: whenever group 1 is reported it is a
non-empty range within the matched text.  This holds for every catalog
pattern of src/textbuf/regexes.rs (each capture group 1 matches at least one
character) but can fail for a custom regex with a nullable group. -/
def CapturesWF (regexes : List RPattern) : Prop :=
  ∀ p ∈ regexes, ∀ t cs ce, p.capture1 t = some (cs, ce) →
    cs < ce ∧ ce ≤ t.length

/-! Concrete abstract regexes used in counterexamples and witnesses. -/

/-- Index of the first occurrence of a character in a chunk. -/
def litFind (target : Char) : List Char → Option Nat
  | [] => none
  | c :: rest =>
    if c = target then some 0 else (litFind target rest).map (· + 1)

/-- Embedding of a custom regex consisting of the single literal character
`t`: its first match is the leftmost occurrence of `t`, one byte wide, and it
has no capture group. -/
def litPat (t : Char) : RPattern :=
  ⟨"custom", fun chunk => (litFind t chunk).map (fun i => (i, i + 1)),
    fun _ => none⟩

/-- Embedding of the custom regex `a(b*)`: the first match starts at the
leftmost `a` and greedily extends over the following run of `b`s; capture
group 1 is that (possibly empty) run of `b`s. -/
def abStarFindFirst (chunk : List Char) : Option (Nat × Nat) :=
  (litFind 'a' chunk).map
    (fun i => (i, i + 1 + ((chunk.drop (i + 1)).takeWhile (· = 'b')).length))

/-- Capture group 1 of the regex `a(b*)` when re-run on a matched text. -/
def abStarCapture (t : List Char) : Option (Nat × Nat) :=
  (litFind 'a' t).map
    (fun j => (j + 1, j + 1 + ((t.drop (j + 1)).takeWhile (· = 'b')).length))

/-- The custom regex `a(b*)` as an abstract pattern. -/
def abStarPat : RPattern := ⟨"custom", abStarFindFirst, abStarCapture⟩

/-- Embedding of the custom regex `()`: it matches the empty string at the
start of every chunk, with an empty capture group 1. -/
def emptyPat : RPattern :=
  ⟨"custom", fun _ => some (0, 0), fun _ => some (0, 0)⟩

/-- The `ansi_colors` exclusion regex restricted to inputs that contain no
control character: on such chunks it never matches, so its first-match
function is constantly `none`. -/
def ansiNoMatch : RPattern := ⟨"ansi_colors", fun _ => none, fun _ => none⟩

/-- The escape sequence `ESC [ m`, the shortest match of the `ansi_colors`
exclusion regex. -/
def escSeq : List Char := [Char.ofNat 27, '[', 'm']

/-- Index of the first occurrence of the escape sequence `ESC [ m` in a
chunk. -/
def escFind : List Char → Option Nat
  | [] => none
  | c :: rest =>
    if (c :: rest).take 3 = escSeq then some 0
    else (escFind rest).map (· + 1)

/-- The `ansi_colors` exclusion regex restricted to inputs whose only escape
sequences have the three-byte shape `ESC [ m` (both optional digit groups
absent): its first match is the leftmost such sequence and group 1 is
absent. -/
def ansiEscPat : RPattern :=
  ⟨"ansi_colors", fun chunk => (escFind chunk).map (fun i => (i, i + 3)),
    fun _ => none⟩

/-! ### Spans, hint lookup trie (src/textbuf/model.rs, `build_lookup_trie`)

The `sequence_trie::SequenceTrie<char, usize>` used by the model is embedded
as a tree whose children are an association list from characters to
subtrees. -/

/-- Embedding of `Span` (src/textbuf/span.rs): matched text, its location,
the pattern that created it, and the associated hint. -/
structure Span where
  x : Nat
  y : Nat
  pattern : String
  text : List Char
  hint : List Char
  deriving DecidableEq, Inhabited

/-- A node of the lookup trie: an optional stored value and an association
list of children. -/
inductive CTrie where
  | node (value : Option Nat) (children : List (Char × CTrie))

/-- Stored value of a trie node. -/
def CTrie.value : CTrie → Option Nat
  | .node v _ => v

/-- Children of a trie node. -/
def CTrie.children : CTrie → List (Char × CTrie)
  | .node _ ch => ch

/-- Embedding of `SequenceTrie::is_leaf`: a node with no children. -/
def CTrie.isLeaf : CTrie → Bool
  | .node _ ch => ch.isEmpty

/-- Lookup of a key in the children association list. -/
def assocFind (c : Char) : List (Char × CTrie) → Option CTrie
  | [] => none
  | (c', t') :: rest => if c' = c then some t' else assocFind c rest

/-- Replacement of the subtree bound to a key in the children association
list. -/
def assocSet (c : Char) (t : CTrie) : List (Char × CTrie) → List (Char × CTrie)
  | [] => []
  | (c', t') :: rest =>
    if c' = c then (c', t) :: rest else (c', t') :: assocSet c t rest

/-- Embedding of `SequenceTrie::get_node`: descend along the key characters
and return the reached node, if any. -/
def trieGetNode : CTrie → List Char → Option CTrie
  | t, [] => some t
  | t, c :: rest =>
    match assocFind c t.children with
    | none => none
    | some t' => trieGetNode t' rest

/-- Embedding of `SequenceTrie::get`: the value stored at the node reached by
the key characters, if any. -/
def trieGet (t : CTrie) (key : List Char) : Option Nat :=
  (trieGetNode t key).bind CTrie.value

/-- Embedding of `SequenceTrie::insert_owned`: store the value at the node
reached by the key characters, creating intermediate nodes as needed. -/
def trieInsert : CTrie → List Char → Nat → CTrie
  | .node _ ch, [], v => .node (some v) ch
  | .node val ch, c :: rest, v =>
    match assocFind c ch with
    | some t' => .node val (assocSet c (trieInsert t' rest v) ch)
    | none => .node val (ch ++ [(c, trieInsert (.node none []) rest v)])

/-- Embedding of the loop of `Model::build_lookup_trie`
(src/textbuf/model.rs lines 216-229): insert each span's hint with the span's
index, skipping hints that are already present ("no need to insert twice the
same hint"). -/
def buildLoop (trie : CTrie) : List (Nat × Span) → CTrie
  | [] => trie
  | (i, sp) :: rest =>
    buildLoop
      (if (trieGet trie sp.hint).isNone then trieInsert trie sp.hint i else trie)
      rest

/-- Embedding of `Model::build_lookup_trie` over the enumerated span
vector. -/
def buildLookupTrie (spans : List Span) : CTrie :=
  buildLoop (.node none []) spans.enum

/-- The span vector of a model holding 589 spans over the `qwerty-homerow`
alphabet: hint assignment is positional, so span `k` carries the `k`-th hint
produced by `make_hints` (which falls back to the `longest` alphabet, since
9 * 9 < 589). Texts and coordinates are irrelevant to the lookup trie. -/
def trieFallbackSpans : List Span :=
  ((makeHints qwertyHomerow 589).getD []).map
    (fun h => ⟨0, 0, "custom", [], h⟩)

/-! ### Interactive key loop (src/ui/vc.rs, `ViewController::listen`)

The embedding keeps the state that determines the returned event: the focus
index, the typed hint accumulator, the uppercase flag and the output
destination.  Rendering, viewport scrolling and the tmux status message are
output-only effects that cannot change the returned event, so they are not
part of the state. -/

/-- Embedding of `OutputDestination` (src/config/extended.rs). -/
inductive OutputDestination where
  | tmux
  | clipboard
  deriving DecidableEq

/-- Embedding of `OutputDestination::toggle`. -/
def OutputDestination.toggle : OutputDestination → OutputDestination
  | .tmux => .clipboard
  | .clipboard => .tmux

/-- Embedding of `Selection` (src/ui/selection.rs): the selected text, the
uppercase modifier and the chosen output destination. -/
structure Selection where
  text : List Char
  uppercased : Bool
  outputDestination : OutputDestination
  deriving DecidableEq

/-- Result of running the key loop on a finite key list: the two variants of
the Rust `Event` enum, plus `pending` when the key list is exhausted while
the Rust loop would still be waiting for input, and `fail` for the panicking
`expect` branches that are unreachable for tries built by
`build_lookup_trie`. -/
inductive KeyLoopResult where
  | exit
  | select (sel : Selection)
  | pending
  | fail
  deriving DecidableEq

/-- Keys handled by `ViewController::listen`; printable characters arrive as
`char`. -/
inductive Key where
  | esc
  | up
  | down
  | left
  | right
  | pageUp
  | pageDown
  | char (c : Char)

/-- Embedding of `ViewController::prev_focus_index` on the focus index. -/
def prevFocusIndex (wrap : Bool) (len idx : Nat) : Nat :=
  if wrap then (if idx = 0 then len - 1 else idx - 1)
  else if idx > 0 then idx - 1 else idx

/-- Embedding of `ViewController::next_focus_index` on the focus index. -/
def nextFocusIndex (wrap : Bool) (len idx : Nat) : Nat :=
  if wrap then (if idx = len - 1 then 0 else idx + 1)
  else if idx < len - 1 then idx + 1 else idx

/-- Mutable state of the `listen` loop that feeds into the returned event. -/
structure ListenState where
  focusIndex : Nat
  typedHint : List Char
  uppercased : Bool
  outputDestination : OutputDestination

/-- Embedding of the key dispatch loop of `ViewController::listen`
(src/ui/vc.rs lines 682-824), run on a finite list of keys. -/
def listenKeys (spans : List Span) (trie : CTrie) (reverse wrap : Bool) :
    ListenState → List Key → KeyLoopResult
  | _, [] => .pending
  | st, k :: ks =>
    let len := spans.length
    let focusPrev := listenKeys spans trie reverse wrap
      { st with focusIndex := prevFocusIndex wrap len st.focusIndex } ks
    let focusNext := listenKeys spans trie reverse wrap
      { st with focusIndex := nextFocusIndex wrap len st.focusIndex } ks
    match k with
    | .esc => .exit
    | .up => focusPrev
    | .down => focusNext
    | .left => focusPrev
    | .right => focusNext
    | .pageUp => listenKeys spans trie reverse wrap st ks
    | .pageDown => listenKeys spans trie reverse wrap st ks
    | .char ch =>
      if ch = 'n' then if reverse then focusPrev else focusNext
      else if ch = 'N' then if reverse then focusNext else focusPrev
      else if ch = 'y' ∨ ch = '\n' then
        .select ⟨(spans.getD st.focusIndex default).text, false,
          st.outputDestination⟩
      else if ch = 'Y' then
        .select ⟨(spans.getD st.focusIndex default).text, true,
          st.outputDestination⟩
      else if ch = ' ' then
        listenKeys spans trie reverse wrap
          { st with outputDestination := st.outputDestination.toggle } ks
      else
        let lower := ch.toLower
        let upper2 := st.uppercased || decide (ch ≠ lower)
        let typed2 := st.typedHint ++ [lower]
        match trieGetNode trie typed2 with
        | none => .exit
        | some node =>
          if node.isLeaf then
            match node.value with
            | none => .fail
            | some spanIndex =>
              match spans.get? spanIndex with
              | none => .fail
              | some sp =>
                .select ⟨sp.text, upper2, st.outputDestination⟩
          else
            listenKeys spans trie reverse wrap
              { st with typedHint := typed2, uppercased := upper2 } ks

/-- Embedding of `ViewController::listen`: the empty-span early exit, the
initial state (initial focus from `ViewController::new`, empty typed hint,
lowercase, default destination), then the key dispatch loop. -/
def listen (spans : List Span) (trie : CTrie) (reverse wrap : Bool)
    (defaultDest : OutputDestination) (keys : List Key) : KeyLoopResult :=
  if spans.isEmpty then .exit
  else
    listenKeys spans trie reverse wrap
      ⟨if reverse then spans.length - 1 else 0, [], false, defaultDest⟩ keys

/-! ### Renderer hint offset (src/ui/vc.rs, `ViewController::render_span`) -/

/-- Embedding of `HintAlignment` (src/ui/hint_alignment.rs). -/
inductive HintAlignment where
  | leading
  | trailing

/-- Rust `usize` subtraction: underflow is a panic (overflow error), embedded
as `none`. -/
def usizeSub (a b : Nat) : Option Nat :=
  if b ≤ a then some (a - b) else none

/-- Embedding of the hint overlay offset computed in
`ViewController::render_span` (src/ui/vc.rs lines 556-572) for a non-focused
span: `0` for leading alignment, `text.len() - span.hint.len()` (a `usize`
subtraction) for trailing alignment. -/
def renderHintOffset (alignment : HintAlignment) (text hint : List Char) :
    Option Nat :=
  match alignment with
  | .leading => some 0
  | .trailing => usizeSub text.length hint.length

/-! ### Lemmas about the lookup trie -/

theorem assocFind_set_of_found {c : Char} {l : List (Char × CTrie)} {t0 : CTrie}
    (t : CTrie) (h : assocFind c l = some t0) :
    assocFind c (assocSet c t l) = some t := by
  induction l with
  | nil => simp [assocFind] at h
  | cons hd tl ih =>
    by_cases hc : hd.1 = c
    · simp [assocFind, assocSet, hc]
    · simp [assocFind, assocSet, hc] at h ⊢
      exact ih h

theorem assocFind_set_ne {c d : Char} {l : List (Char × CTrie)} (t : CTrie)
    (hne : d ≠ c) : assocFind d (assocSet c t l) = assocFind d l := by
  have hcd : ¬ c = d := fun hh => hne hh.symm
  induction l with
  | nil => simp [assocSet]
  | cons hd tl ih =>
    obtain ⟨c', t'⟩ := hd
    by_cases hc : c' = c
    · subst hc
      simp [assocFind, assocSet, hcd]
    · by_cases hdd : c' = d
      · subst hdd
        simp [assocFind, assocSet, hc]
      · simp [assocFind, assocSet, hc, hdd]
        exact ih

theorem assocFind_append_self {c : Char} {l : List (Char × CTrie)} (t : CTrie)
    (h : assocFind c l = none) : assocFind c (l ++ [(c, t)]) = some t := by
  induction l with
  | nil => simp [assocFind]
  | cons hd tl ih =>
    obtain ⟨c', t'⟩ := hd
    by_cases hc : c' = c
    · simp [assocFind, hc] at h
    · simp [assocFind, hc] at h ⊢
      exact ih h

theorem assocFind_append_ne {c d : Char} {l : List (Char × CTrie)} (t : CTrie)
    (hne : d ≠ c) : assocFind d (l ++ [(c, t)]) = assocFind d l := by
  have hcd : ¬ c = d := fun hh => hne hh.symm
  induction l with
  | nil => simp [assocFind, hcd]
  | cons hd tl ih =>
    obtain ⟨c', t'⟩ := hd
    by_cases hdd : c' = d
    · simp [assocFind, hdd]
    · simp [assocFind, hdd]
      exact ih

theorem trieGet_nil (t : CTrie) : trieGet t [] = t.value := by
  simp [trieGet, trieGetNode]

theorem trieGet_cons (t : CTrie) (c : Char) (rest : List Char) :
    trieGet t (c :: rest) =
      match assocFind c t.children with
      | none => none
      | some t' => trieGet t' rest := by
  cases t with
  | node v ch =>
    simp only [trieGet, trieGetNode, CTrie.children]
    cases assocFind c ch <;> rfl

theorem trieGet_insert_self (t : CTrie) (p : List Char) (v : Nat) :
    trieGet (trieInsert t p v) p = some v := by
  induction p generalizing t with
  | nil =>
    cases t with
    | node val ch => simp [trieInsert, trieGet_nil, CTrie.value]
  | cons c rest ih =>
    cases t with
    | node val ch =>
      cases hch : assocFind c ch with
      | some t' =>
        rw [show trieInsert (.node val ch) (c :: rest) v =
          .node val (assocSet c (trieInsert t' rest v) ch) by
            simp [trieInsert, hch]]
        rw [trieGet_cons]
        simp [CTrie.children, assocFind_set_of_found (trieInsert t' rest v) hch, ih]
      | none =>
        rw [show trieInsert (.node val ch) (c :: rest) v =
          .node val (ch ++ [(c, trieInsert (.node none []) rest v)]) by
            simp [trieInsert, hch]]
        rw [trieGet_cons]
        simp [CTrie.children, assocFind_append_self _ hch, ih]

theorem trieGet_insert_empty_ne (p : List Char) (v : Nat) (q : List Char)
    (hne : q ≠ p) : trieGet (trieInsert (.node none []) p v) q = none := by
  induction p generalizing q with
  | nil =>
    cases q with
    | nil => exact absurd rfl hne
    | cons d q' =>
      simp [trieInsert, trieGet_cons, CTrie.children, assocFind]
  | cons c rest ih =>
    rw [show trieInsert (.node none []) (c :: rest) v =
      .node none [(c, trieInsert (.node none []) rest v)] by
        simp [trieInsert, assocFind]]
    cases q with
    | nil => simp [trieGet_nil, CTrie.value]
    | cons d q' =>
      rw [trieGet_cons]
      by_cases hdc : c = d
      · subst hdc
        have hq' : q' ≠ rest := fun hh => hne (by rw [hh])
        simp [CTrie.children, assocFind, ih q' hq']
      · simp [CTrie.children, assocFind, hdc]

theorem trieGet_insert_ne (t : CTrie) (p : List Char) (v : Nat) (q : List Char)
    (hne : q ≠ p) : trieGet (trieInsert t p v) q = trieGet t q := by
  induction p generalizing t q with
  | nil =>
    cases t with
    | node val ch =>
      cases q with
      | nil => exact absurd rfl hne
      | cons d q' => simp [trieInsert, trieGet_cons, CTrie.children]
  | cons c rest ih =>
    cases t with
    | node val ch =>
      cases q with
      | nil =>
        cases hch : assocFind c ch <;>
          simp [trieInsert, hch, trieGet_nil, CTrie.value]
      | cons d q' =>
        by_cases hdc : d = c
        · subst hdc
          have hq' : q' ≠ rest := fun hh => hne (by rw [hh])
          cases hch : assocFind d ch with
          | some t' =>
            rw [show trieInsert (.node val ch) (d :: rest) v =
              .node val (assocSet d (trieInsert t' rest v) ch) by
                simp [trieInsert, hch]]
            rw [trieGet_cons, trieGet_cons]
            simp [CTrie.children, assocFind_set_of_found (trieInsert t' rest v) hch,
              hch, ih t' q' hq']
          | none =>
            rw [show trieInsert (.node val ch) (d :: rest) v =
              .node val (ch ++ [(d, trieInsert (.node none []) rest v)]) by
                simp [trieInsert, hch]]
            rw [trieGet_cons, trieGet_cons]
            simp [CTrie.children, assocFind_append_self _ hch, hch,
              trieGet_insert_empty_ne rest v q' hq']
        · cases hch : assocFind c ch with
          | some t' =>
            rw [show trieInsert (.node val ch) (c :: rest) v =
              .node val (assocSet c (trieInsert t' rest v) ch) by
                simp [trieInsert, hch]]
            rw [trieGet_cons, trieGet_cons]
            simp [CTrie.children, assocFind_set_ne _ hdc]
          | none =>
            rw [show trieInsert (.node val ch) (c :: rest) v =
              .node val (ch ++ [(c, trieInsert (.node none []) rest v)]) by
                simp [trieInsert, hch]]
            rw [trieGet_cons, trieGet_cons]
            simp [CTrie.children, assocFind_append_ne _ hdc]

/-- First value bound to a hint in an enumerated span list, mirroring the
insert-once policy of `build_lookup_trie`. -/
def specFind (q : List Char) : List (Nat × Span) → Option Nat
  | [] => none
  | (i, sp) :: rest => if sp.hint = q then some i else specFind q rest

theorem buildLoop_get (l : List (Nat × Span)) :
    ∀ (t : CTrie) (q : List Char),
      trieGet (buildLoop t l) q =
        match trieGet t q with
        | some v => some v
        | none => specFind q l := by
  induction l with
  | nil =>
    intro t q
    simp [buildLoop, specFind]
    cases trieGet t q <;> rfl
  | cons hd rest ih =>
    intro t q
    obtain ⟨i, sp⟩ := hd
    rw [show buildLoop t ((i, sp) :: rest) =
      buildLoop (if (trieGet t sp.hint).isNone then trieInsert t sp.hint i
        else t) rest from rfl]
    rw [ih]
    by_cases hq : sp.hint = q
    · subst hq
      cases hget : trieGet t sp.hint with
      | some v =>
        simp only [Option.isNone_some, Bool.false_eq_true, if_false]
        simp [hget, specFind]
      | none =>
        simp only [Option.isNone_none, if_true]
        simp [hget, specFind, trieGet_insert_self]
    · cases hget : trieGet t sp.hint with
      | some v =>
        simp only [Option.isNone_some, Bool.false_eq_true, if_false]
        simp [specFind, hq]
      | none =>
        simp only [Option.isNone_none, if_true]
        rw [trieGet_insert_ne t sp.hint i q (fun hh => hq hh.symm)]
        simp [specFind, hq]

theorem trieGet_root_empty (q : List Char) :
    trieGet (CTrie.node none []) q = none := by
  cases q with
  | nil => simp [trieGet_nil, CTrie.value]
  | cons c rest => simp [trieGet_cons, CTrie.children, assocFind]

theorem specFind_enumFrom (q : List Char) :
    ∀ (spans : List Span) (k : Nat),
      (∃ i, i < spans.length ∧ (spans.getD i default).hint = q) →
      ∃ j, j < spans.length ∧
        specFind q (List.enumFrom k spans) = some (k + j) ∧
        (spans.getD j default).hint = q ∧
        ∀ m, m < j → (spans.getD m default).hint ≠ q := by
  intro spans
  induction spans with
  | nil =>
    intro k h
    obtain ⟨i, hi, _⟩ := h
    exact absurd hi (by simp)
  | cons sp rest ih =>
    intro k h
    by_cases hsp : sp.hint = q
    · refine ⟨0, by simp, ?_, by simpa using hsp, by omega⟩
      simp [List.enumFrom, specFind, hsp]
    · obtain ⟨i, hi, hhint⟩ := h
      have hi' : ∃ i', i' < rest.length ∧ (rest.getD i' default).hint = q := by
        cases i with
        | zero => exact absurd (by simpa using hhint) hsp
        | succ i' =>
          refine ⟨i', by simpa using hi, ?_⟩
          simpa using hhint
      obtain ⟨j', hj', hfind, hhq, hmin⟩ := ih (k + 1) hi'
      refine ⟨j' + 1, by simpa using hj', ?_, by simpa using hhq, ?_⟩
      · rw [show List.enumFrom k (sp :: rest) = (k, sp) :: List.enumFrom (k + 1) rest
          from rfl]
        simp [specFind, hsp, hfind]
        omega
      · intro m hm
        cases m with
        | zero => simpa using hsp
        | succ m' =>
          have := hmin m' (by omega)
          simpa using this

theorem StrictLeads_cons (c : Char) {q p : List Char} (h : StrictLeads q p) :
    StrictLeads (c :: q) (c :: p) := by
  obtain ⟨h1, h2⟩ := h
  refine ⟨by simpa using h1, ?_⟩
  simp only [List.length_cons, List.take_succ_cons]
  rw [h2]

theorem StrictLeads_cons_inv {d : Char} {q' p : List Char}
    (h : StrictLeads (d :: q') p) : ∃ p', p = d :: p' ∧ StrictLeads q' p' := by
  obtain ⟨h1, h2⟩ := h
  cases p with
  | nil => simp at h1
  | cons e p' =>
    simp only [List.length_cons, List.take_succ_cons] at h1 h2
    obtain ⟨he, htake⟩ := List.cons_eq_cons.mp h2
    exact ⟨p', by rw [he], by omega, htake⟩

theorem trieGetNode_cons (t : CTrie) (c : Char) (rest : List Char) :
    trieGetNode t (c :: rest) =
      match assocFind c t.children with
      | none => none
      | some t' => trieGetNode t' rest := by
  cases t
  rfl

theorem assocSet_cons_ne_nil (c : Char) (t : CTrie) (hd : Char × CTrie)
    (tl : List (Char × CTrie)) : assocSet c t (hd :: tl) ≠ [] := by
  obtain ⟨c', t'⟩ := hd
  by_cases hc : c' = c <;> simp [assocSet, hc]

theorem trieInsert_empty_child :
    ∀ (p : List Char) (v : Nat) (q : List Char) (node : CTrie),
      trieGetNode (trieInsert (.node none []) p v) q = some node →
      node.isLeaf = false → StrictLeads q p := by
  intro p
  induction p with
  | nil =>
    intro v q node h hleaf
    cases q with
    | nil =>
      have h2 : some (CTrie.node (some v) []) = some node := h
      rw [← Option.some_inj.mp h2] at hleaf
      simp [CTrie.isLeaf] at hleaf
    | cons d q' =>
      rw [trieGetNode_cons] at h
      simp [CTrie.children, assocFind] at h
  | cons c p' ih =>
    intro v q node h hleaf
    rw [show trieInsert (.node none []) (c :: p') v =
      .node none [(c, trieInsert (.node none []) p' v)] by
        simp [trieInsert, assocFind]] at h
    cases q with
    | nil => exact ⟨by simp, by simp⟩
    | cons d q' =>
      rw [trieGetNode_cons] at h
      by_cases hdc : c = d
      · subst hdc
        simp only [CTrie.children, assocFind, if_pos rfl] at h
        exact StrictLeads_cons c (ih v q' node h hleaf)
      · simp [CTrie.children, assocFind, hdc] at h

theorem trieInsert_child :
    ∀ (p : List Char) (v : Nat) (t : CTrie) (q : List Char) (node : CTrie),
      trieGetNode (trieInsert t p v) q = some node → node.isLeaf = false →
      (∃ node0, trieGetNode t q = some node0 ∧ node0.isLeaf = false) ∨
        StrictLeads q p := by
  intro p
  induction p with
  | nil =>
    intro v t q node h hleaf
    obtain ⟨val, ch⟩ := t
    cases q with
    | nil =>
      left
      refine ⟨.node val ch, rfl, ?_⟩
      have h2 : some (CTrie.node (some v) ch) = some node := h
      rw [← Option.some_inj.mp h2] at hleaf
      simpa [CTrie.isLeaf] using hleaf
    | cons d q' =>
      left
      refine ⟨node, ?_, hleaf⟩
      rw [trieGetNode_cons] at h ⊢
      simp only [CTrie.children] at h ⊢
      exact h
  | cons c p' ih =>
    intro v t q node h hleaf
    obtain ⟨val, ch⟩ := t
    cases q with
    | nil => exact Or.inr ⟨by simp, by simp⟩
    | cons d q' =>
      cases hch : assocFind c ch with
      | some t' =>
        rw [show trieInsert (.node val ch) (c :: p') v =
          .node val (assocSet c (trieInsert t' p' v) ch) by
            simp [trieInsert, hch]] at h
        rw [trieGetNode_cons] at h
        simp only [CTrie.children] at h
        by_cases hdc : d = c
        · subst hdc
          rw [assocFind_set_of_found (trieInsert t' p' v) hch] at h
          rcases ih v t' q' node h hleaf with ⟨node0, h0, hl0⟩ | hsl
          · left
            refine ⟨node0, ?_, hl0⟩
            rw [trieGetNode_cons]
            simp only [CTrie.children]
            rw [hch]
            exact h0
          · exact Or.inr (StrictLeads_cons d hsl)
        · rw [assocFind_set_ne _ hdc] at h
          left
          refine ⟨node, ?_, hleaf⟩
          rw [trieGetNode_cons]
          simp only [CTrie.children]
          exact h
      | none =>
        rw [show trieInsert (.node val ch) (c :: p') v =
          .node val (ch ++ [(c, trieInsert (.node none []) p' v)]) by
            simp [trieInsert, hch]] at h
        rw [trieGetNode_cons] at h
        simp only [CTrie.children] at h
        by_cases hdc : d = c
        · subst hdc
          rw [assocFind_append_self _ hch] at h
          exact Or.inr
            (StrictLeads_cons d (trieInsert_empty_child p' v q' node h hleaf))
        · rw [assocFind_append_ne _ hdc] at h
          left
          refine ⟨node, ?_, hleaf⟩
          rw [trieGetNode_cons]
          simp only [CTrie.children]
          exact h

theorem trieInsert_makes_child :
    ∀ (q p : List Char) (v : Nat) (t : CTrie), StrictLeads q p →
      ∃ node, trieGetNode (trieInsert t p v) q = some node ∧
        node.isLeaf = false := by
  intro q
  induction q with
  | nil =>
    intro p v t hsl
    obtain ⟨val, ch⟩ := t
    obtain ⟨hlen, -⟩ := hsl
    cases p with
    | nil => simp at hlen
    | cons c p' =>
      cases hch : assocFind c ch with
      | some t' =>
        refine ⟨.node val (assocSet c (trieInsert t' p' v) ch), ?_, ?_⟩
        · rw [show trieInsert (.node val ch) (c :: p') v =
            .node val (assocSet c (trieInsert t' p' v) ch) by
              simp [trieInsert, hch]]
          rfl
        · cases ch with
          | nil => simp [assocFind] at hch
          | cons hd tl =>
            simp [CTrie.isLeaf,
              List.isEmpty_eq_false_iff_exists_mem.mpr
                (by
                  obtain ⟨x, hx⟩ :=
                    List.exists_mem_of_ne_nil _
                      (assocSet_cons_ne_nil c (trieInsert t' p' v) hd tl)
                  exact ⟨x, hx⟩)]
      | none =>
        refine ⟨.node val (ch ++ [(c, trieInsert (.node none []) p' v)]),
          ?_, ?_⟩
        · rw [show trieInsert (.node val ch) (c :: p') v =
            .node val (ch ++ [(c, trieInsert (.node none []) p' v)]) by
              simp [trieInsert, hch]]
          rfl
        · simp [CTrie.isLeaf]
  | cons d q' ih =>
    intro p v t hsl
    obtain ⟨p', rfl, hsl'⟩ := StrictLeads_cons_inv hsl
    obtain ⟨val, ch⟩ := t
    cases hch : assocFind d ch with
    | some t' =>
      obtain ⟨node, hnode, hleaf⟩ := ih p' v t' hsl'
      refine ⟨node, ?_, hleaf⟩
      rw [show trieInsert (.node val ch) (d :: p') v =
        .node val (assocSet d (trieInsert t' p' v) ch) by
          simp [trieInsert, hch]]
      rw [trieGetNode_cons]
      simp only [CTrie.children]
      rw [assocFind_set_of_found _ hch]
      exact hnode
    | none =>
      obtain ⟨node, hnode, hleaf⟩ := ih p' v (.node none []) hsl'
      refine ⟨node, ?_, hleaf⟩
      rw [show trieInsert (.node val ch) (d :: p') v =
        .node val (ch ++ [(d, trieInsert (.node none []) p' v)]) by
          simp [trieInsert, hch]]
      rw [trieGetNode_cons]
      simp only [CTrie.children]
      rw [assocFind_append_self _ hch]
      exact hnode

theorem trieInsert_keeps_child :
    ∀ (p : List Char) (v : Nat) (t : CTrie) (q : List Char) (node0 : CTrie),
      trieGetNode t q = some node0 → node0.isLeaf = false →
      ∃ node, trieGetNode (trieInsert t p v) q = some node ∧
        node.isLeaf = false := by
  intro p
  induction p with
  | nil =>
    intro v t q node0 h0 hl0
    obtain ⟨val, ch⟩ := t
    cases q with
    | nil =>
      refine ⟨.node (some v) ch, rfl, ?_⟩
      have h2 : some (CTrie.node val ch) = some node0 := h0
      rw [← Option.some_inj.mp h2] at hl0
      simpa [CTrie.isLeaf] using hl0
    | cons d q' =>
      refine ⟨node0, ?_, hl0⟩
      rw [trieGetNode_cons] at h0 ⊢
      simp only [CTrie.children] at h0 ⊢
      exact h0
  | cons c p' ih =>
    intro v t q node0 h0 hl0
    obtain ⟨val, ch⟩ := t
    cases q with
    | nil =>
      have h2 : some (CTrie.node val ch) = some node0 := h0
      rw [← Option.some_inj.mp h2] at hl0
      have hch' : ch ≠ [] := by
        intro hnil
        rw [hnil] at hl0
        simp [CTrie.isLeaf] at hl0
      cases hch : assocFind c ch with
      | some t' =>
        refine ⟨.node val (assocSet c (trieInsert t' p' v) ch), ?_, ?_⟩
        · rw [show trieInsert (.node val ch) (c :: p') v =
            .node val (assocSet c (trieInsert t' p' v) ch) by
              simp [trieInsert, hch]]
          rfl
        · cases ch with
          | nil => exact absurd rfl hch'
          | cons hd tl =>
            simp [CTrie.isLeaf,
              List.isEmpty_eq_false_iff_exists_mem.mpr
                (by
                  obtain ⟨x, hx⟩ :=
                    List.exists_mem_of_ne_nil _
                      (assocSet_cons_ne_nil c (trieInsert t' p' v) hd tl)
                  exact ⟨x, hx⟩)]
      | none =>
        refine ⟨.node val (ch ++ [(c, trieInsert (.node none []) p' v)]),
          ?_, ?_⟩
        · rw [show trieInsert (.node val ch) (c :: p') v =
            .node val (ch ++ [(c, trieInsert (.node none []) p' v)]) by
              simp [trieInsert, hch]]
          rfl
        · simp [CTrie.isLeaf]
    | cons d q' =>
      rw [trieGetNode_cons] at h0
      simp only [CTrie.children] at h0
      cases hfd : assocFind d ch with
      | none => rw [hfd] at h0; simp at h0
      | some t'' =>
        rw [hfd] at h0
        by_cases hdc : d = c
        · subst hdc
          obtain ⟨node, hnode, hleaf⟩ := ih v t'' q' node0 h0 hl0
          refine ⟨node, ?_, hleaf⟩
          rw [show trieInsert (.node val ch) (d :: p') v =
            .node val (assocSet d (trieInsert t'' p' v) ch) by
              simp [trieInsert, hfd]]
          rw [trieGetNode_cons]
          simp only [CTrie.children]
          rw [assocFind_set_of_found _ hfd]
          exact hnode
        · cases hch : assocFind c ch with
          | some t' =>
            refine ⟨node0, ?_, hl0⟩
            rw [show trieInsert (.node val ch) (c :: p') v =
              .node val (assocSet c (trieInsert t' p' v) ch) by
                simp [trieInsert, hch]]
            rw [trieGetNode_cons]
            simp only [CTrie.children]
            rw [assocFind_set_ne _ hdc, hfd]
            exact h0
          | none =>
            refine ⟨node0, ?_, hl0⟩
            rw [show trieInsert (.node val ch) (c :: p') v =
              .node val (ch ++ [(c, trieInsert (.node none []) p' v)]) by
                simp [trieInsert, hch]]
            rw [trieGetNode_cons]
            simp only [CTrie.children]
            rw [assocFind_append_ne _ hdc, hfd]
            exact h0

theorem trieGetNode_extension_child :
    ∀ (q h : List Char) (t node1 : CTrie),
      trieGetNode t h = some node1 → StrictLeads q h →
      ∃ node, trieGetNode t q = some node ∧ node.isLeaf = false := by
  intro q
  induction q with
  | nil =>
    intro h t node1 hget hsl
    cases h with
    | nil => exact absurd hsl.1 (by simp)
    | cons c h' =>
      rw [trieGetNode_cons] at hget
      cases hfd : assocFind c t.children with
      | none => rw [hfd] at hget; simp at hget
      | some t' =>
        refine ⟨t, rfl, ?_⟩
        obtain ⟨val, ch⟩ := t
        simp only [CTrie.children] at hfd
        cases ch with
        | nil => simp [assocFind] at hfd
        | cons _ _ => simp [CTrie.isLeaf]
  | cons d q' ih =>
    intro h t node1 hget hsl
    obtain ⟨h', rfl, hsl'⟩ := StrictLeads_cons_inv hsl
    rw [trieGetNode_cons] at hget
    cases hfd : assocFind d t.children with
    | none => rw [hfd] at hget; simp at hget
    | some t' =>
      rw [hfd] at hget
      obtain ⟨node, hnode, hleaf⟩ := ih h' t' node1 hget hsl'
      refine ⟨node, ?_, hleaf⟩
      rw [trieGetNode_cons, hfd]
      exact hnode

theorem buildLoop_makes_child (l : List (Nat × Span)) :
    ∀ (t : CTrie) (q : List Char),
      ((∃ node, trieGetNode t q = some node ∧ node.isLeaf = false) ∨
        ∃ ip ∈ l, StrictLeads q ip.2.hint) →
      ∃ node, trieGetNode (buildLoop t l) q = some node ∧
        node.isLeaf = false := by
  induction l with
  | nil =>
    intro t q hpre
    rcases hpre with h | ⟨ip, hm, -⟩
    · exact h
    · simp at hm
  | cons hd rest ih =>
    obtain ⟨i, sp⟩ := hd
    intro t q hpre
    rw [show buildLoop t ((i, sp) :: rest) =
      buildLoop (if (trieGet t sp.hint).isNone then trieInsert t sp.hint i
        else t) rest from rfl]
    apply ih
    rcases hpre with ⟨node0, h0, hl0⟩ | ⟨ip, hm, hsl⟩
    · left
      cases hget : trieGet t sp.hint with
      | some v =>
        simp only [hget, Option.isNone_some, Bool.false_eq_true, if_false]
        exact ⟨node0, h0, hl0⟩
      | none =>
        simp only [hget, Option.isNone_none, if_true]
        exact trieInsert_keeps_child sp.hint i t q node0 h0 hl0
    · rcases List.mem_cons.mp hm with rfl | hm'
      · left
        cases hget : trieGet t sp.hint with
        | none =>
          simp only [hget, Option.isNone_none, if_true]
          exact trieInsert_makes_child q sp.hint i t hsl
        | some v =>
          simp only [hget, Option.isNone_some, Bool.false_eq_true, if_false]
          have hbind : (trieGetNode t sp.hint).bind CTrie.value = some v := hget
          obtain ⟨node1, h1, -⟩ := Option.bind_eq_some.mp hbind
          exact trieGetNode_extension_child q sp.hint t node1 h1 hsl
      · exact Or.inr ⟨ip, hm', hsl⟩

theorem buildLoop_child (l : List (Nat × Span)) :
    ∀ (t : CTrie) (q : List Char) (node : CTrie),
      trieGetNode (buildLoop t l) q = some node → node.isLeaf = false →
      (∃ node0, trieGetNode t q = some node0 ∧ node0.isLeaf = false) ∨
        ∃ ip ∈ l, StrictLeads q ip.2.hint := by
  induction l with
  | nil =>
    intro t q node h hl
    exact Or.inl ⟨node, h, hl⟩
  | cons hd rest ih =>
    obtain ⟨i, sp⟩ := hd
    intro t q node h hl
    rcases ih _ q node h hl with ⟨node0, h0, hl0⟩ | ⟨ip, hm, hsl⟩
    · cases hget : trieGet t sp.hint with
      | some v =>
        rw [hget] at h0
        simp only [Option.isNone_some, Bool.false_eq_true, if_false] at h0
        exact Or.inl ⟨node0, h0, hl0⟩
      | none =>
        rw [hget] at h0
        simp only [Option.isNone_none, if_true] at h0
        rcases trieInsert_child sp.hint i t q node0 h0 hl0 with hleft | hsl
        · exact Or.inl hleft
        · exact Or.inr ⟨(i, sp), List.mem_cons_self _ _, hsl⟩
    · exact Or.inr ⟨ip, List.mem_cons_of_mem _ hm, hsl⟩

theorem enumFrom_snd_mem :
    ∀ (l : List Span) (k : Nat) (x : Nat × Span),
      x ∈ List.enumFrom k l → x.2 ∈ l := by
  intro l
  induction l with
  | nil =>
    intro k x h
    simp [List.enumFrom] at h
  | cons sp rest ih =>
    intro k x h
    rw [show List.enumFrom k (sp :: rest) =
      (k, sp) :: List.enumFrom (k + 1) rest from rfl] at h
    rcases List.mem_cons.mp h with rfl | h'
    · exact List.mem_cons_self _ _
    · exact List.mem_cons_of_mem _ (ih (k + 1) x h')

theorem buildLookupTrie_child {spans : List Span} {q : List Char}
    {node : CTrie} (h : trieGetNode (buildLookupTrie spans) q = some node)
    (hl : node.isLeaf = false) : ∃ sp ∈ spans, StrictLeads q sp.hint := by
  rcases buildLoop_child spans.enum (.node none []) q node h hl with
    ⟨node0, h0, hl0⟩ | ⟨ip, hm, hsl⟩
  · cases q with
    | nil =>
      have h2 : some (CTrie.node none []) = some node0 := h0
      rw [← Option.some_inj.mp h2] at hl0
      simp [CTrie.isLeaf] at hl0
    | cons d q' =>
      rw [trieGetNode_cons] at h0
      simp [CTrie.children, assocFind] at h0
  · exact ⟨ip.2, enumFrom_snd_mem spans 0 ip hm, hsl⟩

/-- C7 (amended): for every span in the model's span vector, walking the
characters of that span's hint from the root of the lookup trie built by
`build_lookup_trie` ends at a node whose stored value is the index of the
first span sharing that hint (the span's own index when hints are pairwise
distinct; under unique mode the first duplicate's index, identical hints
having been inserted only once); that node is moreover a leaf whenever no
span's hint strictly extends the walked hint — which can fail for hint sets
containing a hint and a strict extension of it, producible by `make_hints`
under the `longest` fallback. -/
theorem trie_lookup_returns_first_span_index (spans : List Span) (i : Nat)
    (hi : i < spans.length) :
    ∃ j, j ≤ i ∧ j < spans.length ∧
      trieGet (buildLookupTrie spans) ((spans.getD i default).hint) = some j ∧
      (spans.getD j default).hint = (spans.getD i default).hint ∧
      (∀ m, m < j →
        (spans.getD m default).hint ≠ (spans.getD i default).hint) ∧
      ((∀ sp ∈ spans, ¬ StrictLeads ((spans.getD i default).hint) sp.hint) →
        ∃ node,
          trieGetNode (buildLookupTrie spans) ((spans.getD i default).hint) =
              some node ∧
            node.value = some j ∧ node.isLeaf = true) := by
  have hq : ∃ i', i' < spans.length ∧
      (spans.getD i' default).hint = (spans.getD i default).hint :=
    ⟨i, hi, rfl⟩
  obtain ⟨j, hj, hfind, hhq, hmin⟩ :=
    specFind_enumFrom ((spans.getD i default).hint) spans 0 hq
  have henum : List.enum spans = List.enumFrom 0 spans := rfl
  have hget : trieGet (buildLookupTrie spans) ((spans.getD i default).hint)
      = some j := by
    rw [buildLookupTrie, buildLoop_get, trieGet_root_empty, henum, hfind]
    simp
  have hji : j ≤ i := by
    by_contra hlt
    exact hmin i (by omega) rfl
  refine ⟨j, hji, hj, hget, hhq, hmin, ?_⟩
  intro hnp
  have hbind : (trieGetNode (buildLookupTrie spans)
      ((spans.getD i default).hint)).bind CTrie.value = some j := hget
  obtain ⟨node, hnode, hval⟩ := Option.bind_eq_some.mp hbind
  refine ⟨node, hnode, hval, ?_⟩
  cases hleaf : node.isLeaf with
  | true => rfl
  | false =>
    obtain ⟨sp, hsp, hsl⟩ := buildLookupTrie_child hnode hleaf
    exact absurd hsl (hnp sp hsp)

/-- Witness for C7 on a concrete span vector with a duplicated hint (unique
mode): the hint of the third span leads to the index of the first span, which
carries the same hint, and since no hint strictly extends another the reached
node is a leaf. -/
theorem trie_lookup_returns_first_span_index_witness :
    ∃ j, j ≤ 2 ∧ j < 3 ∧
      trieGet
        (buildLookupTrie [⟨0, 0, "ipv4", ['1'], ['a']⟩,
          ⟨4, 0, "ipv4", ['2'], ['b']⟩, ⟨8, 0, "ipv4", ['1'], ['a']⟩])
        (([⟨0, 0, "ipv4", ['1'], ['a']⟩, ⟨4, 0, "ipv4", ['2'], ['b']⟩,
          ⟨8, 0, "ipv4", ['1'], ['a']⟩] : List Span).getD 2 default).hint
        = some j ∧
      (([⟨0, 0, "ipv4", ['1'], ['a']⟩, ⟨4, 0, "ipv4", ['2'], ['b']⟩,
        ⟨8, 0, "ipv4", ['1'], ['a']⟩] : List Span).getD j default).hint =
      (([⟨0, 0, "ipv4", ['1'], ['a']⟩, ⟨4, 0, "ipv4", ['2'], ['b']⟩,
        ⟨8, 0, "ipv4", ['1'], ['a']⟩] : List Span).getD 2 default).hint ∧
      (∀ m, m < j →
        (([⟨0, 0, "ipv4", ['1'], ['a']⟩, ⟨4, 0, "ipv4", ['2'], ['b']⟩,
          ⟨8, 0, "ipv4", ['1'], ['a']⟩] : List Span).getD m default).hint ≠
        (([⟨0, 0, "ipv4", ['1'], ['a']⟩, ⟨4, 0, "ipv4", ['2'], ['b']⟩,
          ⟨8, 0, "ipv4", ['1'], ['a']⟩] : List Span).getD 2 default).hint) ∧
      ((∀ sp ∈ ([⟨0, 0, "ipv4", ['1'], ['a']⟩, ⟨4, 0, "ipv4", ['2'], ['b']⟩,
          ⟨8, 0, "ipv4", ['1'], ['a']⟩] : List Span),
        ¬ StrictLeads
          (([⟨0, 0, "ipv4", ['1'], ['a']⟩, ⟨4, 0, "ipv4", ['2'], ['b']⟩,
            ⟨8, 0, "ipv4", ['1'], ['a']⟩] : List Span).getD 2 default).hint
          sp.hint) →
        ∃ node,
          trieGetNode
            (buildLookupTrie [⟨0, 0, "ipv4", ['1'], ['a']⟩,
              ⟨4, 0, "ipv4", ['2'], ['b']⟩, ⟨8, 0, "ipv4", ['1'], ['a']⟩])
            (([⟨0, 0, "ipv4", ['1'], ['a']⟩, ⟨4, 0, "ipv4", ['2'], ['b']⟩,
              ⟨8, 0, "ipv4", ['1'], ['a']⟩] : List Span).getD 2 default).hint
            = some node ∧
          node.value = some j ∧ node.isLeaf = true) :=
  trie_lookup_returns_first_span_index
    [⟨0, 0, "ipv4", ['1'], ['a']⟩, ⟨4, 0, "ipv4", ['2'], ['b']⟩,
      ⟨8, 0, "ipv4", ['1'], ['a']⟩] 2 (by decide)

set_option maxRecDepth 4000 in
/-- C7 counterexample to leafness as originally stated: in the 589-span model
over the `qwerty-homerow` alphabet the `make_hints` fallback to `longest`
assigns span 27 the hint `~` and span 39 the hint `~a` (the `longest`
alphabet contains `~` twice); walking `~` through the built lookup trie
reaches the node storing the correct first index 27, but that node has a
child on `a` (continuing towards `~a`), so the walk ends at an internal node,
not at a leaf. -/
theorem trie_walk_not_leaf_counterexample :
    (trieFallbackSpans.getD 27 default).hint = ['~'] ∧
    27 < trieFallbackSpans.length ∧
    trieGet (buildLookupTrie trieFallbackSpans) ['~'] = some 27 ∧
    (trieGetNode (buildLookupTrie trieFallbackSpans) ['~']).map CTrie.isLeaf =
      some false := by
  refine ⟨by decide, by decide, ?_, ?_⟩
  · have h1 : trieGet (buildLookupTrie trieFallbackSpans) ['~'] =
        specFind ['~'] trieFallbackSpans.enum := by
      rw [buildLookupTrie, buildLoop_get, trieGet_root_empty]
    rw [h1]
    decide
  · have hpair : (39, (⟨0, 0, "custom", [], ['~', 'a']⟩ : Span)) ∈
        trieFallbackSpans.enum := by decide
    have hsl : StrictLeads ['~'] ['~', 'a'] := by
      exact ⟨by decide, by decide⟩
    obtain ⟨node, hnode, hleaf⟩ :=
      buildLoop_makes_child trieFallbackSpans.enum (.node none []) ['~']
        (Or.inr ⟨(39, ⟨0, 0, "custom", [], ['~', 'a']⟩), hpair, hsl⟩)
    rw [show buildLookupTrie trieFallbackSpans =
      buildLoop (.node none []) trieFallbackSpans.enum from rfl, hnode]
    simp [hleaf]

/-! ### Lemmas about the hint generation loop -/

theorem hintsLoopAux_zero (letters : List Char) (n : Nat) (lead : List Char)
    (prev : List (List Char)) :
    hintsLoopAux letters n 0 lead prev = (lead, prev) := rfl

theorem hintsLoopAux_succ_ge {n : Nat} {lead : List Char}
    {prev : List (List Char)} (h : lead.length + prev.length ≥ n)
    (letters : List Char) (fuel : Nat) :
    hintsLoopAux letters n (fuel + 1) lead prev = (lead, prev) := by
  simp only [hintsLoopAux]
  rw [if_pos h]

theorem hintsLoopAux_succ_nil (letters : List Char) (n fuel : Nat)
    (prev : List (List Char)) :
    hintsLoopAux letters n (fuel + 1) [] prev = ([], prev) := by
  simp only [hintsLoopAux]
  split <;> rfl

theorem hintsLoopAux_succ_cons {lead : List Char} (hne : lead ≠ [])
    {n : Nat} {prev : List (List Char)}
    (hlt : lead.length + prev.length < n) (letters : List Char) (fuel : Nat) :
    hintsLoopAux letters n (fuel + 1) lead prev =
      hintsLoopAux letters n fuel lead.dropLast
        (((letters.take (n - lead.dropLast.length - prev.length)).map
          (fun c => [lead.getLast hne, c])) ++ prev) := by
  obtain ⟨c0, rest, rfl⟩ := List.exists_cons_of_ne_nil hne
  simp only [hintsLoopAux]
  rw [if_neg (by omega)]

/-- The generation loop never grows the hint count beyond `n`: each generated
block is truncated to the remaining need. -/
theorem hintsLoopAux_total_le (letters : List Char) (n : Nat) :
    ∀ (fuel : Nat) (lead : List Char) (prev : List (List Char)),
      lead.length + prev.length ≤ n →
      (hintsLoopAux letters n fuel lead prev).1.length +
        (hintsLoopAux letters n fuel lead prev).2.length ≤ n := by
  intro fuel
  induction fuel with
  | zero =>
    intro lead prev h
    rw [hintsLoopAux_zero]
    exact h
  | succ f ih =>
    intro lead prev h
    by_cases hge : lead.length + prev.length ≥ n
    · rw [hintsLoopAux_succ_ge hge]
      exact h
    · cases lead with
      | nil =>
        rw [hintsLoopAux_succ_nil]
        exact h
      | cons c0 rest =>
        rw [hintsLoopAux_succ_cons (by simp) (by omega)]
        apply ih
        rw [List.length_append, List.length_map, List.length_take,
          List.length_dropLast]
        simp only [List.length_cons] at hge ⊢
        omega

/-- Every letter of the final lead and both letters of every generated pair
come from the letter list (or were already in `prev`). -/
theorem hintsLoopAux_shape (letters : List Char) (n : Nat) :
    ∀ (fuel : Nat) (lead : List Char) (prev : List (List Char)),
      (∀ c ∈ lead, c ∈ letters) →
      (∀ h ∈ prev, ∃ p c, h = [p, c] ∧ p ∈ letters ∧ c ∈ letters) →
      (∀ c ∈ (hintsLoopAux letters n fuel lead prev).1, c ∈ letters) ∧
      (∀ h ∈ (hintsLoopAux letters n fuel lead prev).2,
        ∃ p c, h = [p, c] ∧ p ∈ letters ∧ c ∈ letters) := by
  intro fuel
  induction fuel with
  | zero =>
    intro lead prev hl hp
    rw [hintsLoopAux_zero]
    exact ⟨hl, hp⟩
  | succ f ih =>
    intro lead prev hl hp
    by_cases hge : lead.length + prev.length ≥ n
    · rw [hintsLoopAux_succ_ge hge]
      exact ⟨hl, hp⟩
    · cases lead with
      | nil =>
        rw [hintsLoopAux_succ_nil]
        exact ⟨hl, hp⟩
      | cons c0 rest =>
        rw [hintsLoopAux_succ_cons (by simp) (by omega)]
        apply ih
        · intro c hc
          exact hl c ((List.dropLast_sublist _).subset hc)
        · intro h hh
          rcases List.mem_append.mp hh with hgen | hold
          · rcases List.mem_map.mp hgen with ⟨c, hc, rfl⟩
            exact ⟨_, c, rfl, hl _ (List.getLast_mem _),
              List.take_subset _ _ hc⟩
          · exact hp h hold

/-- The loop keeps at most `|letters|` lead letters and at most
`(|letters| - |lead|) · |letters|` generated pairs. -/
theorem hintsLoopAux_capacity (letters : List Char) (n : Nat) :
    ∀ (fuel : Nat) (lead : List Char) (prev : List (List Char)),
      lead.length ≤ letters.length →
      prev.length ≤ (letters.length - lead.length) * letters.length →
      (hintsLoopAux letters n fuel lead prev).1.length ≤ letters.length ∧
      (hintsLoopAux letters n fuel lead prev).2.length ≤
        (letters.length - (hintsLoopAux letters n fuel lead prev).1.length) *
          letters.length := by
  intro fuel
  induction fuel with
  | zero =>
    intro lead prev h1 h2
    rw [hintsLoopAux_zero]
    exact ⟨h1, h2⟩
  | succ f ih =>
    intro lead prev h1 h2
    by_cases hge : lead.length + prev.length ≥ n
    · rw [hintsLoopAux_succ_ge hge]
      exact ⟨h1, h2⟩
    · cases lead with
      | nil =>
        rw [hintsLoopAux_succ_nil]
        exact ⟨h1, h2⟩
      | cons c0 rest =>
        rw [hintsLoopAux_succ_cons (by simp) (by omega)]
        apply ih
        · rw [List.length_dropLast]
          simp only [List.length_cons] at h1 ⊢
          omega
        · have hsplit : (letters.length - (c0 :: rest).dropLast.length) *
              letters.length =
              (letters.length - (c0 :: rest).length) * letters.length +
                letters.length := by
            have heq : letters.length - (c0 :: rest).dropLast.length =
                (letters.length - (c0 :: rest).length) + 1 := by
              rw [List.length_dropLast]
              simp only [List.length_cons] at h1 ⊢
              omega
            rw [heq, Nat.add_mul, Nat.one_mul]
          rw [List.length_append, List.length_map, List.length_take, hsplit]
          have hmin : min (n - (c0 :: rest).dropLast.length - prev.length)
              letters.length ≤ letters.length := Nat.min_le_right _ _
          omega

/-- When the letters are pairwise distinct, the final lead is an initial
segment of the letter list and the leading letter of every generated pair
lies outside that segment. -/
theorem hintsLoopAux_nodup (letters : List Char) (n : Nat)
    (hnd : letters.Nodup) :
    ∀ (fuel k : Nat) (prev : List (List Char)), k ≤ letters.length →
      (∀ h ∈ prev, ∃ p c, h = [p, c] ∧ p ∉ letters.take k) →
      ∃ k', k' ≤ k ∧
        (hintsLoopAux letters n fuel (letters.take k) prev).1 =
          letters.take k' ∧
        ∀ h ∈ (hintsLoopAux letters n fuel (letters.take k) prev).2,
          ∃ p c, h = [p, c] ∧ p ∉ letters.take k' := by
  intro fuel
  induction fuel with
  | zero =>
    intro k prev hk hp
    rw [hintsLoopAux_zero]
    exact ⟨k, le_refl _, rfl, hp⟩
  | succ f ih =>
    intro k prev hk hp
    by_cases hge : (letters.take k).length + prev.length ≥ n
    · rw [hintsLoopAux_succ_ge hge]
      exact ⟨k, le_refl _, rfl, hp⟩
    · by_cases hk0 : k = 0
      · subst hk0
        rw [show letters.take 0 = ([] : List Char) from rfl,
          hintsLoopAux_succ_nil]
        exact ⟨0, le_refl _, rfl, by simpa using hp⟩
      · have hlen : (letters.take k).length = k := by
          rw [List.length_take]
          omega
        have hne : letters.take k ≠ [] := by
          intro hnil
          rw [hnil] at hlen
          simp at hlen
          omega
        rw [hintsLoopAux_succ_cons hne (by omega)]
        have hdrop : (letters.take k).dropLast = letters.take (k - 1) := by
          rw [List.dropLast_eq_take, hlen, List.take_take]
          congr 1
          omega
        have hsub : ∀ x, x ∈ letters.take (k - 1) → x ∈ letters.take k := by
          intro x hx
          have hx2 : x ∈ (letters.take k).take (k - 1) := by
            rw [List.take_take, min_eq_left (by omega)]
            exact hx
          exact List.take_subset _ _ hx2
        have hlast : (letters.take k).getLast hne ∉ letters.take (k - 1) := by
          have h1 : (letters.take k).Nodup :=
            hnd.sublist (List.take_sublist k letters)
          rw [← List.dropLast_append_getLast hne] at h1
          have h2 := List.nodup_append.mp h1
          intro hmem
          rw [hdrop] at h2
          exact h2.2.2 hmem (List.mem_singleton_self _)
        rw [hdrop]
        have hprevcond : ∀ h ∈ ((letters.take
            (n - (letters.take (k - 1)).length - prev.length)).map
              (fun c => [(letters.take k).getLast hne, c])) ++ prev,
            ∃ p c, h = [p, c] ∧ p ∉ letters.take (k - 1) := by
          intro h hh
          rcases List.mem_append.mp hh with hgen | hold
          · rcases List.mem_map.mp hgen with ⟨c, _, rfl⟩
            exact ⟨_, c, rfl, hlast⟩
          · obtain ⟨p, c, rfl, hpk⟩ := hp h hold
            exact ⟨p, c, rfl, fun hmem => hpk (hsub p hmem)⟩
        obtain ⟨k', hk', hlead', hprev'⟩ := ih (k - 1) _ (by omega) hprevcond
        exact ⟨k', by omega, hlead', hprev'⟩

theorem total_le_sq {L k p : Nat} (hk : k ≤ L) (hp : p ≤ (L - k) * L) :
    k + p ≤ L * L := by
  rcases Nat.eq_zero_or_pos L with h0 | hpos
  · subst h0
    simp at hp ⊢
    omega
  · have h1 : k ≤ k * L := Nat.le_mul_of_pos_right k hpos
    have h2 : k * L + (L - k) * L = L * L := by
      rw [← Nat.add_mul]
      congr 1
      omega
    omega

/-- Inversion of `makeHintsCore`: a successful result is the concatenation of
the final lead (as one-letter hints), the generated pairs, and the empty-hint
filler, and the filler subtraction did not underflow. -/
theorem makeHintsCore_eq_some {letters : List Char} {n : Nat}
    {l : List (List Char)} (h : makeHintsCore letters n = some l) :
    (hintsLoop letters n letters []).1.length +
      (hintsLoop letters n letters []).2.length ≤ n ∧
    l = ((hintsLoop letters n letters []).1.map (fun c => [c])) ++
      (hintsLoop letters n letters []).2 ++
      List.replicate (n - (hintsLoop letters n letters []).1.length -
        (hintsLoop letters n letters []).2.length) [] := by
  by_cases hg : (hintsLoop letters n letters []).1.length +
      (hintsLoop letters n letters []).2.length ≤ n
  · refine ⟨hg, ?_⟩
    simp only [makeHintsCore] at h
    rw [if_pos hg] at h
    exact (Option.some_injective _ h).symm
  · simp only [makeHintsCore] at h
    rw [if_neg hg] at h
    simp at h

/-- Core correctness of the hint generation once the letter list has been
selected and is no longer than `n`: exactly `n` hints, every character from
the letter list, and prefix-freedom of the non-empty hints when the letters
are pairwise distinct. -/
theorem makeHintsCore_spec (letters : List Char) (n : Nat)
    (hlen : letters.length ≤ n) :
    ∃ l, makeHintsCore letters n = some l ∧ l.length = n ∧
      (∀ h ∈ l, ∀ c ∈ h, c ∈ letters) ∧
      (letters.Nodup → UnambiguousHints l) := by
  have htot : (hintsLoop letters n letters []).1.length +
      (hintsLoop letters n letters []).2.length ≤ n :=
    hintsLoopAux_total_le letters n letters.length letters [] (by simpa using hlen)
  refine ⟨(hintsLoop letters n letters []).1.map (fun c => [c]) ++
    (hintsLoop letters n letters []).2 ++
    List.replicate (n - (hintsLoop letters n letters []).1.length -
      (hintsLoop letters n letters []).2.length) [], ?_, ?_, ?_, ?_⟩
  · simp only [makeHintsCore]
    rw [if_pos htot]
  · rw [List.length_append, List.length_append, List.length_map,
      List.length_replicate]
    omega
  · obtain ⟨hl', hp'⟩ := hintsLoopAux_shape letters n letters.length letters []
      (fun c hc => hc) (by simp)
    intro h hh
    rcases List.mem_append.mp hh with h12 | hrep
    · rcases List.mem_append.mp h12 with hsing | hprev
      · rcases List.mem_map.mp hsing with ⟨c, hc, rfl⟩
        intro c' hc'
        rw [List.mem_singleton.mp hc']
        exact hl' c hc
      · obtain ⟨p, c, rfl, hp1, hc1⟩ := hp' h hprev
        intro c' hc'
        rcases List.mem_cons.mp hc' with rfl | hc''
        · exact hp1
        · rw [List.mem_singleton.mp hc'']
          exact hc1
    · rw [List.eq_of_mem_replicate hrep]
      intro c' hc'
      simp at hc'
  · intro hnd
    have hnodup := hintsLoopAux_nodup letters n hnd letters.length
      letters.length [] (le_refl _) (by simp)
    rw [List.take_length] at hnodup
    obtain ⟨k', _, hlead', hprev'⟩ := hnodup
    have hclass : ∀ x ∈ (hintsLoop letters n letters []).1.map (fun c => [c]) ++
        (hintsLoop letters n letters []).2 ++
        List.replicate (n - (hintsLoop letters n letters []).1.length -
          (hintsLoop letters n letters []).2.length) [],
        (∃ c, x = [c] ∧ c ∈ letters.take k') ∨
        (∃ p c, x = [p, c] ∧ p ∉ letters.take k') ∨ x = [] := by
      intro x hx
      rcases List.mem_append.mp hx with h12 | hrep
      · rcases List.mem_append.mp h12 with hsing | hpr
        · left
          rcases List.mem_map.mp hsing with ⟨c, hc, rfl⟩
          refine ⟨c, rfl, ?_⟩
          rw [← hlead']
          exact hc
        · right; left
          exact hprev' x hpr
      · right; right
        exact List.eq_of_mem_replicate hrep
    intro h1 hm1 h2 hm2 hne hSL
    rcases hclass h1 hm1 with ⟨c1, rfl, hc1⟩ | ⟨p1, c1, rfl, _⟩ | rfl
    · rcases hclass h2 hm2 with ⟨c2, rfl, _⟩ | ⟨p2, c2, rfl, hp2⟩ | rfl
      · exact Nat.lt_irrefl 1 hSL.1
      · have htake := hSL.2
        have hpc : p2 = c1 := by
          simpa using htake
        exact hp2 (hpc ▸ hc1)
      · exact absurd hSL.1 (by simp [StrictLeads])
    · rcases hclass h2 hm2 with ⟨c2, rfl, _⟩ | ⟨p2, c2, rfl, _⟩ | rfl
      · exact absurd hSL.1 (by simp)
      · exact Nat.lt_irrefl 2 hSL.1
      · exact absurd hSL.1 (by simp)
    · exact hne rfl

/-- C2 amended: whenever the fallback to the `longest` alphabet is only taken
with `n` at least the `longest` alphabet's size (always the case for catalog
alphabets, whose sizes are at least 9), `make_hints` returns exactly `n`
hints; every character of every hint comes from the effectively used letter
list (the alphabet itself, or `longest` after the fallback); and when that
letter list has pairwise distinct letters, no non-empty returned hint is a
strict prefix of another returned hint. -/
theorem make_hints_returns_n_prefix_free_hints (a : List Char) (n : Nat)
    (hfall : a.length ^ 2 < n → longestLetters.length ≤ n) :
    ∃ l, makeHints a n = some l ∧ l.length = n ∧
      (∀ h ∈ l, ∀ c ∈ h, c ∈ hintLetters a n) ∧
      ((hintLetters a n).Nodup → UnambiguousHints l) := by
  by_cases h1 : a.length ≥ n
  · refine ⟨(a.take n).map (fun c => [c]), by simp [makeHints, h1], ?_, ?_, ?_⟩
    · rw [List.length_map, List.length_take]
      omega
    · intro h hh
      rcases List.mem_map.mp hh with ⟨c, hc, rfl⟩
      intro c' hc'
      rw [List.mem_singleton.mp hc']
      have hmem : c ∈ a := List.take_subset _ _ hc
      simp [hintLetters, h1]
      exact hmem
    · intro _ x hx y hy _ hSL
      rcases List.mem_map.mp hx with ⟨cx, _, rfl⟩
      rcases List.mem_map.mp hy with ⟨cy, _, rfl⟩
      exact Nat.lt_irrefl 1 hSL.1
  · have hmake : makeHints a n = makeHintsCore (hintLetters a n) n := by
      simp [makeHints, hintLetters, h1]
    have hlen_le : (hintLetters a n).length ≤ n := by
      by_cases h2 : a.length ^ 2 ≥ n
      · simp [hintLetters, h1, h2]
        omega
      · simp [hintLetters, h1, h2]
        exact hfall (by omega)
    rw [hmake]
    exact makeHintsCore_spec (hintLetters a n) n hlen_le

/-- Witness for C2 amended: the two-letter alphabet `ab` at `n = 60` takes
the fallback (4 < 60 and 50 ≤ 60), and the theorem yields the 60 hints with
their character and prefix-freedom properties. -/
theorem make_hints_returns_n_prefix_free_hints_witness :
    ∃ l, makeHints ['a', 'b'] 60 = some l ∧ l.length = 60 ∧
      (∀ h ∈ l, ∀ c ∈ h, c ∈ hintLetters ['a', 'b'] 60) ∧
      ((hintLetters ['a', 'b'] 60).Nodup → UnambiguousHints l) :=
  make_hints_returns_n_prefix_free_hints ['a', 'b'] 60 (by decide)

/-- C3: when the alphabet cannot produce `n` hints (`m² < n`), `make_hints`
switches to the `longest` alphabet and recomputes the hints with its letters;
and whenever that computation returns, the returned list has `n` elements and
everything beyond the `longest` alphabet's two-letter capacity (`50² = 2500`
hints) is an empty-string hint — the tail padding.  In particular a
single-character alphabet with `n = 2` takes the fallback (see the
witness). -/
theorem make_hints_fallback_to_longest (a : List Char) (n : Nat)
    (h : a.length ^ 2 < n) :
    makeHints a n = makeHintsCore longestLetters n ∧
    ∀ l, makeHintsCore longestLetters n = some l →
      l.length = n ∧ ∀ hh ∈ l.drop (longestLetters.length ^ 2), hh = [] := by
  constructor
  · have hn1 : ¬ a.length ≥ n := by
      intro hge
      rcases Nat.eq_zero_or_pos a.length with h0 | hpos
      · rw [h0] at h hge
        simp at h
        omega
      · have hmul : a.length ≤ a.length * a.length :=
          Nat.le_mul_of_pos_right _ hpos
        have hsq : a.length ^ 2 = a.length * a.length := by ring
        omega
    have h2 : ¬ n ≤ a.length ^ 2 := by omega
    simp [makeHints, hn1, h2]
  · intro l hl
    obtain ⟨hguard, hform⟩ := makeHintsCore_eq_some hl
    have hcap := hintsLoopAux_capacity longestLetters n longestLetters.length
      longestLetters [] (le_refl _) (by simp)
    have htot : (hintsLoop longestLetters n longestLetters []).1.length +
        (hintsLoop longestLetters n longestLetters []).2.length ≤
        longestLetters.length * longestLetters.length := by
      have hk1 : (hintsLoop longestLetters n longestLetters []).1.length ≤
          longestLetters.length := hcap.1
      exact total_le_sq hk1 hcap.2
    constructor
    · rw [hform, List.length_append, List.length_append, List.length_map,
        List.length_replicate]
      omega
    · intro hh hmem
      rw [hform, List.drop_append_eq_append_drop] at hmem
      have hAB : ((hintsLoop longestLetters n longestLetters []).1.map
          (fun c => [c]) ++
          (hintsLoop longestLetters n longestLetters []).2).length ≤
          longestLetters.length ^ 2 := by
        rw [List.length_append, List.length_map]
        have hsq : longestLetters.length ^ 2 =
          longestLetters.length * longestLetters.length := by ring
        omega
      rw [List.drop_eq_nil_of_le hAB] at hmem
      simp only [List.nil_append] at hmem
      exact List.eq_of_mem_replicate (List.mem_of_mem_drop hmem)

/-- Witness for C3: the single-character alphabet `x` with `n = 2` takes the
fallback to the `longest` alphabet (there the filler subtraction underflows,
a Rust panic, so both sides of the equality are the failing computation). -/
theorem make_hints_fallback_to_longest_witness :
    makeHints ['x'] 2 = makeHintsCore longestLetters 2 ∧
    ∀ l, makeHintsCore longestLetters 2 = some l →
      l.length = 2 ∧ ∀ hh ∈ l.drop (longestLetters.length ^ 2), hh = [] :=
  make_hints_fallback_to_longest ['x'] 2 (by decide)

/-! ### Lemmas about match selection -/

theorem pickMin_go (l : List Cand) :
    ∀ a : Cand, (∀ c ∈ l, a.idx < c.idx) →
      l.Pairwise (fun x y => x.idx < y.idx) →
      ∃ m, List.foldl pickMinStep (some a) l = some m ∧
        (m = a ∨ (m ∈ l ∧ m.s < a.s)) ∧
        (∀ c ∈ l, m.s ≤ c.s) ∧
        (∀ c ∈ l, m.s = c.s → m.idx ≤ c.idx) := by
  induction l with
  | nil =>
    intro a _ _
    exact ⟨a, rfl, Or.inl rfl, by simp, by simp⟩
  | cons c0 rest ih =>
    intro a h1 h2
    have h2' := List.pairwise_cons.mp h2
    by_cases hlt : c0.s < a.s
    · have hstep : List.foldl pickMinStep (some a) (c0 :: rest) =
        List.foldl pickMinStep (some c0) rest := by
        simp [pickMinStep, hlt]
      obtain ⟨m, hm, hspec, hmin, htie⟩ := ih c0 h2'.1 h2'.2
      refine ⟨m, by rw [hstep]; exact hm, ?_, ?_, ?_⟩
      · right
        rcases hspec with rfl | ⟨hmem, hms⟩
        · exact ⟨List.mem_cons_self _ _, hlt⟩
        · exact ⟨List.mem_cons_of_mem _ hmem, lt_trans hms hlt⟩
      · intro c hc
        rcases List.mem_cons.mp hc with rfl | hc'
        · rcases hspec with rfl | ⟨_, hms⟩
          · exact le_refl _
          · exact le_of_lt hms
        · exact hmin c hc'
      · intro c hc hs
        rcases List.mem_cons.mp hc with rfl | hc'
        · rcases hspec with rfl | ⟨_, hms⟩
          · exact le_refl _
          · exact absurd hs (ne_of_lt hms)
        · exact htie c hc' hs
    · have hstep : List.foldl pickMinStep (some a) (c0 :: rest) =
        List.foldl pickMinStep (some a) rest := by
        simp [pickMinStep, hlt]
      obtain ⟨m, hm, hspec, hmin, htie⟩ :=
        ih a (fun c hc => h1 c (List.mem_cons_of_mem _ hc)) h2'.2
      have hma : m.s ≤ a.s := by
        rcases hspec with rfl | ⟨_, hms⟩
        · exact le_refl _
        · exact le_of_lt hms
      refine ⟨m, by rw [hstep]; exact hm, ?_, ?_, ?_⟩
      · rcases hspec with rfl | ⟨hmem, hms⟩
        · exact Or.inl rfl
        · exact Or.inr ⟨List.mem_cons_of_mem _ hmem, hms⟩
      · intro c hc
        rcases List.mem_cons.mp hc with rfl | hc'
        · exact le_trans hma (le_of_not_lt hlt)
        · exact hmin c hc'
      · intro c hc hs
        rcases List.mem_cons.mp hc with rfl | hc'
        · rcases hspec with rfl | ⟨_, hms⟩
          · exact le_of_lt (h1 c (List.mem_cons_self _ _))
          · exact absurd (lt_of_lt_of_le hms (le_of_not_lt hlt))
              (by rw [hs]; exact lt_irrefl _)
        · exact htie c hc' hs

theorem pickMin_spec {l : List Cand} {m : Cand}
    (hpair : l.Pairwise (fun a b => a.idx < b.idx)) (h : pickMin l = some m) :
    m ∈ l ∧ ∀ c ∈ l, m.s ≤ c.s ∧ (m.s = c.s → m.idx ≤ c.idx) := by
  cases l with
  | nil => simp [pickMin] at h
  | cons c0 rest =>
    have hp := List.pairwise_cons.mp hpair
    obtain ⟨m', hm', hspec, hmin, htie⟩ := pickMin_go rest c0 hp.1 hp.2
    have hmm : m' = m := by
      rw [pickMin, List.foldl_cons] at h
      rw [show pickMinStep none c0 = some c0 from rfl] at h
      rw [hm'] at h
      exact Option.some_injective _ h
    subst hmm
    constructor
    · rcases hspec with rfl | ⟨hmem, _⟩
      · exact List.mem_cons_self _ _
      · exact List.mem_cons_of_mem _ hmem
    · intro c hc
      rcases List.mem_cons.mp hc with rfl | hc'
      · constructor
        · rcases hspec with rfl | ⟨_, hms⟩
          · exact le_refl _
          · exact le_of_lt hms
        · intro hs
          rcases hspec with rfl | ⟨_, hms⟩
          · exact le_refl _
          · exact absurd hs (ne_of_lt hms)
      · exact ⟨(hmin c hc'), htie c hc'⟩

theorem chunkMatches_enumFrom_spec (chunk : List Char) :
    ∀ (regexes : List RPattern) (k : Nat),
      (∀ x ∈ (List.enumFrom k regexes).filterMap
          (fun ip => (ip.2.findFirst chunk).map
            (fun se => (⟨ip.1, ip.2, se.1, se.2⟩ : Cand))),
        k ≤ x.idx ∧ regexes.get? (x.idx - k) = some x.pat ∧
          x.pat.findFirst chunk = some (x.s, x.e)) ∧
      ((List.enumFrom k regexes).filterMap
          (fun ip => (ip.2.findFirst chunk).map
            (fun se => (⟨ip.1, ip.2, se.1, se.2⟩ : Cand)))).Pairwise
        (fun a b => a.idx < b.idx) := by
  intro regexes
  induction regexes with
  | nil => intro k; exact ⟨by simp, by simp⟩
  | cons p rest ih =>
    intro k
    obtain ⟨ihm, ihp⟩ := ih (k + 1)
    have hef : List.enumFrom k (p :: rest) =
      (k, p) :: List.enumFrom (k + 1) rest := rfl
    rw [hef, List.filterMap_cons]
    have htail : ∀ x ∈ (List.enumFrom (k + 1) rest).filterMap
        (fun ip => (ip.2.findFirst chunk).map
          (fun se => (⟨ip.1, ip.2, se.1, se.2⟩ : Cand))),
        k ≤ x.idx ∧ (p :: rest).get? (x.idx - k) = some x.pat ∧
          x.pat.findFirst chunk = some (x.s, x.e) := by
      intro x hx
      obtain ⟨hk1, hget, hfind⟩ := ihm x hx
      refine ⟨by omega, ?_, hfind⟩
      have hidx : x.idx - k = (x.idx - (k + 1)) + 1 := by omega
      rw [hidx]
      exact hget
    cases hf : p.findFirst chunk with
    | none =>
      simp only [hf, Option.map_none']
      exact ⟨htail, ihp⟩
    | some se =>
      obtain ⟨s, e⟩ := se
      simp only [hf, Option.map_some']
      constructor
      · intro x hx
        rcases List.mem_cons.mp hx with rfl | hx'
        · exact ⟨le_refl _, by simp, hf⟩
        · exact htail x hx'
      · rw [List.pairwise_cons]
        refine ⟨?_, ihp⟩
        intro x hx
        exact lt_of_lt_of_le (Nat.lt_succ_self k) (ihm x hx).1

theorem chunkMatches_props (regexes : List RPattern) (chunk : List Char) :
    (∀ x ∈ chunkMatches regexes chunk,
      regexes.get? x.idx = some x.pat ∧
        x.pat.findFirst chunk = some (x.s, x.e)) ∧
    (chunkMatches regexes chunk).Pairwise (fun a b => a.idx < b.idx) := by
  obtain ⟨hm, hp⟩ := chunkMatches_enumFrom_spec chunk regexes 0
  refine ⟨?_, hp⟩
  intro x hx
  obtain ⟨_, hget, hfind⟩ := hm x hx
  rw [Nat.sub_zero] at hget
  exact ⟨hget, hfind⟩

theorem selectMatch_spec {regexes : List RPattern} {chunk : List Char}
    {c : Cand} (h : selectMatch regexes chunk = some c) :
    regexes.get? c.idx = some c.pat ∧
    c.pat.findFirst chunk = some (c.s, c.e) ∧
    c ∈ chunkMatches regexes chunk ∧
    ∀ c' ∈ chunkMatches regexes chunk,
      c.s ≤ c'.s ∧ (c.s = c'.s → c.idx ≤ c'.idx) := by
  obtain ⟨hprops, hpair⟩ := chunkMatches_props regexes chunk
  obtain ⟨hmem, hmin⟩ := pickMin_spec hpair h
  obtain ⟨hget, hfind⟩ := hprops c hmem
  exact ⟨hget, hfind, hmem, hmin⟩

/-- C1: during span extraction, each iteration computes every effective
regex's first match on the remaining chunk and selects the candidate with the
smallest start offset, resolving ties by position in the effective regex
list, which is assembled as exclusion patterns, then custom patterns, then
the catalog (or selected) patterns — so on a tie an exclusion pattern wins
over a custom pattern, which wins over a catalog pattern. -/
theorem extractor_selects_earliest_match_with_list_priority
    (ex cu cat sel : List RPattern) (useAll : Bool) (chunk : List Char)
    (c : Cand)
    (h : selectMatch (effectiveRegexes ex cu cat sel useAll) chunk = some c) :
    (effectiveRegexes ex cu cat sel useAll).get? c.idx = some c.pat ∧
    c.pat.findFirst chunk = some (c.s, c.e) ∧
    ∀ c' ∈ chunkMatches (effectiveRegexes ex cu cat sel useAll) chunk,
      c.s ≤ c'.s ∧ (c.s = c'.s → c.idx ≤ c'.idx) := by
  obtain ⟨hget, hfind, _, hmin⟩ := selectMatch_spec h
  exact ⟨hget, hfind, hmin⟩

/-- Witness for C1: with the exclusion pattern, one custom pattern and one
selected catalog pattern that has the same first match as the custom one, the
selection picks the minimal start offset and resolves the tie to the custom
pattern (index 1), which precedes the catalog copy (index 2). -/
theorem extractor_selects_earliest_match_with_list_priority_witness :
    (effectiveRegexes [ansiNoMatch] [litPat 'a'] [] [litPat 'a'] false).get?
      (⟨1, litPat 'a', 0, 1⟩ : Cand).idx = some (⟨1, litPat 'a', 0, 1⟩ : Cand).pat ∧
    (⟨1, litPat 'a', 0, 1⟩ : Cand).pat.findFirst ['a'] =
      some ((⟨1, litPat 'a', 0, 1⟩ : Cand).s, (⟨1, litPat 'a', 0, 1⟩ : Cand).e) ∧
    ∀ c' ∈ chunkMatches
        (effectiveRegexes [ansiNoMatch] [litPat 'a'] [] [litPat 'a'] false) ['a'],
      (⟨1, litPat 'a', 0, 1⟩ : Cand).s ≤ c'.s ∧
      ((⟨1, litPat 'a', 0, 1⟩ : Cand).s = c'.s →
        (⟨1, litPat 'a', 0, 1⟩ : Cand).idx ≤ c'.idx) :=
  extractor_selects_earliest_match_with_list_priority
    [ansiNoMatch] [litPat 'a'] [] [litPat 'a'] false ['a']
    ⟨1, litPat 'a', 0, 1⟩ rfl

/-! ### Lemmas about the per-line extraction loop -/

theorem rawMatchesLine_succ (regexes : List RPattern) (fuel : Nat)
    (chunk : List Char) (offset y : Nat) :
    rawMatchesLine regexes (fuel + 1) chunk offset y =
      match selectMatch regexes chunk with
      | none => some []
      | some c =>
        match rawMatchesLine regexes fuel (chunk.drop c.e) (offset + c.e) y with
        | none => none
        | some rest =>
          if c.pat.name = "ansi_colors" then some rest
          else
            some (⟨offset + c.s + (subMatch chunk c).2, y, c.pat.name,
              (subMatch chunk c).1⟩ :: rest) := rfl

theorem rawMatchesLine_succ_none {regexes : List RPattern} {chunk : List Char}
    (hsel : selectMatch regexes chunk = none) (fuel offset y : Nat) :
    rawMatchesLine regexes (fuel + 1) chunk offset y = some [] := by
  rw [rawMatchesLine_succ, hsel]

theorem rawMatchesLine_succ_some {regexes : List RPattern} {chunk : List Char}
    {c : Cand} (hsel : selectMatch regexes chunk = some c)
    (fuel offset y : Nat) :
    rawMatchesLine regexes (fuel + 1) chunk offset y =
      match rawMatchesLine regexes fuel (chunk.drop c.e) (offset + c.e) y with
      | none => none
      | some rest =>
        if c.pat.name = "ansi_colors" then some rest
        else
          some (⟨offset + c.s + (subMatch chunk c).2, y, c.pat.name,
            (subMatch chunk c).1⟩ :: rest) := by
  rw [rawMatchesLine_succ, hsel]

/-- Inversion of one successful iteration of the extraction loop. -/
theorem rawMatchesLine_succ_inv {regexes : List RPattern} {fuel : Nat}
    {chunk : List Char} {offset y : Nat} {l : List RawSpan}
    (h : rawMatchesLine regexes (fuel + 1) chunk offset y = some l) :
    (selectMatch regexes chunk = none ∧ l = []) ∨
    (∃ c rest, selectMatch regexes chunk = some c ∧
      rawMatchesLine regexes fuel (chunk.drop c.e) (offset + c.e) y =
        some rest ∧
      ((c.pat.name = "ansi_colors" ∧ l = rest) ∨
        (c.pat.name ≠ "ansi_colors" ∧
          l = ⟨offset + c.s + (subMatch chunk c).2, y, c.pat.name,
            (subMatch chunk c).1⟩ :: rest))) := by
  cases hsel : selectMatch regexes chunk with
  | none =>
    rw [rawMatchesLine_succ_none hsel] at h
    exact Or.inl ⟨rfl, (Option.some_injective _ h).symm⟩
  | some c =>
    rw [rawMatchesLine_succ_some hsel] at h
    cases hrec : rawMatchesLine regexes fuel (chunk.drop c.e) (offset + c.e) y with
    | none => rw [hrec] at h; exact absurd h (by simp)
    | some rest =>
      rw [hrec] at h
      have h3 : (if c.pat.name = "ansi_colors" then some rest
          else some (⟨offset + c.s + (subMatch chunk c).2, y, c.pat.name,
            (subMatch chunk c).1⟩ :: rest)) = some l := h
      by_cases hname : c.pat.name = "ansi_colors"
      · rw [if_pos hname] at h3
        exact Or.inr ⟨c, rest, rfl, hrec,
          Or.inl ⟨hname, (Option.some_injective _ h3).symm⟩⟩
      · rw [if_neg hname] at h3
        exact Or.inr ⟨c, rest, rfl, hrec,
          Or.inr ⟨hname, (Option.some_injective _ h3).symm⟩⟩

/-- Every emitted span of a line run has a pattern name other than
`ansi_colors` and an `x` at least the starting offset of the run. -/
theorem rawMatchesLine_mem (regexes : List RPattern) :
    ∀ (fuel : Nat) (chunk : List Char) (offset y : Nat) (l : List RawSpan),
      rawMatchesLine regexes fuel chunk offset y = some l →
      ∀ sp ∈ l, sp.pattern ≠ "ansi_colors" ∧ offset ≤ sp.x := by
  intro fuel
  induction fuel with
  | zero =>
    intro chunk offset y l h
    exact absurd h (by simp [rawMatchesLine])
  | succ f ih =>
    intro chunk offset y l h sp hsp
    rcases rawMatchesLine_succ_inv h with ⟨hsel, rfl⟩ |
      ⟨c, rest, hsel, hrec, hcase⟩
    · simp at hsp
    · rcases hcase with ⟨hname, rfl⟩ | ⟨hname, rfl⟩
      · obtain ⟨hpat, hx⟩ := ih _ _ _ _ hrec sp hsp
        exact ⟨hpat, le_trans (Nat.le_add_right offset c.e) hx⟩
      · rcases List.mem_cons.mp hsp with rfl | hsp'
        · refine ⟨hname, ?_⟩
          show offset ≤ offset + c.s + (subMatch chunk c).2
          omega
        · obtain ⟨hpat, hx⟩ := ih _ _ _ _ hrec sp hsp'
          exact ⟨hpat, le_trans (Nat.le_add_right offset c.e) hx⟩

/-- C5: a match of the `ansi_colors` exclusion pattern never produces a span
— no span in the extractor's per-line output has pattern name `ansi_colors`
— yet when the selected match is an `ansi_colors` match the loop still
advances past it (the chunk is cut and the offset increased by the match
end), and every span emitted later has `x` at least that advanced offset, so
the escape's bytes are accounted for. -/
theorem ansi_colors_never_emits_but_advances (regexes : List RPattern)
    (fuel : Nat) (chunk : List Char) (offset y : Nat) :
    (∀ l, rawMatchesLine regexes fuel chunk offset y = some l →
      ∀ sp ∈ l, sp.pattern ≠ "ansi_colors" ∧ offset ≤ sp.x) ∧
    (∀ c, selectMatch regexes chunk = some c →
      c.pat.name = "ansi_colors" →
      rawMatchesLine regexes (fuel + 1) chunk offset y =
        rawMatchesLine regexes fuel (chunk.drop c.e) (offset + c.e) y) := by
  constructor
  · intro l h sp hsp
    exact rawMatchesLine_mem regexes fuel chunk offset y l h sp hsp
  · intro c hsel hname
    rw [rawMatchesLine_succ_some hsel]
    cases hrec : rawMatchesLine regexes fuel (chunk.drop c.e) (offset + c.e) y with
    | none => rfl
    | some rest => simp [hname]

/-- Witness for C5: on the line `ESC [ m c` with the exclusion pattern and
the custom literal `c`, the loop advances three bytes past the escape without
emitting a span for it, and the only emitted span is the `c` at `x = 3`. -/
theorem ansi_colors_never_emits_but_advances_witness :
    (∀ sp ∈ [(⟨3, 0, "custom", ['c']⟩ : RawSpan)],
      sp.pattern ≠ "ansi_colors" ∧ 0 ≤ sp.x) ∧
    rawMatchesLine [ansiEscPat, litPat 'c'] 3 (escSeq ++ ['c']) 0 0 =
      rawMatchesLine [ansiEscPat, litPat 'c'] 2 ((escSeq ++ ['c']).drop 3)
        (0 + 3) 0 := by
  constructor
  · exact (ansi_colors_never_emits_but_advances [ansiEscPat, litPat 'c'] 3
      (escSeq ++ ['c']) 0 0).1 [⟨3, 0, "custom", ['c']⟩] rfl
  · exact (ansi_colors_never_emits_but_advances [ansiEscPat, litPat 'c'] 2
      (escSeq ++ ['c']) 0 0).2 ⟨0, ansiEscPat, 0, 3⟩ rfl rfl

theorem matchedText_length {chunk : List Char} {c : Cand} (hel : c.e ≤ chunk.length) :
    (matchedText chunk c).length = c.e - c.s := by
  simp [matchedText]
  omega

/-- Bounds on the emitted subtext for a well-formed selected match: it starts
strictly inside the match and ends no later than the match end. -/
theorem subMatch_span_bounds {regexes : List RPattern}
    (hc : CapturesWF regexes) {chunk : List Char} {c : Cand}
    (hpmem : c.pat ∈ regexes) (hse : c.s < c.e) (hel : c.e ≤ chunk.length) :
    c.s + (subMatch chunk c).2 < c.e ∧
    c.s + (subMatch chunk c).2 + (subMatch chunk c).1.length ≤ c.e := by
  have hmt := matchedText_length (c := c) hel
  cases hcap : c.pat.capture1 (matchedText chunk c) with
  | none =>
    have h1 : (subMatch chunk c).1 = matchedText chunk c := by
      simp [subMatch, hcap]
    have h2 : (subMatch chunk c).2 = 0 := by
      simp [subMatch, hcap]
    rw [h1, h2, hmt]
    omega
  | some cse =>
    obtain ⟨cs, ce⟩ := cse
    obtain ⟨hcse, hcel⟩ := hc c.pat hpmem (matchedText chunk c) cs ce hcap
    have h1 : (subMatch chunk c).1 =
        ((matchedText chunk c).drop cs).take (ce - cs) := by
      simp [subMatch, hcap]
    have h2 : (subMatch chunk c).2 = cs := by
      simp [subMatch, hcap]
    have hlen : (((matchedText chunk c).drop cs).take (ce - cs)).length
        = ce - cs := by
      rw [List.length_take, List.length_drop, hmt]
      omega
    rw [h1, h2, hlen]
    omega

/-- C4 amended: when no effective regex can match the empty string and every
reported capture group 1 is non-empty (true of the whole catalog), the spans
emitted for a line are strictly ordered by `x` and pairwise non-overlapping:
each span ends (at `x + text.length`) no later than the next span starts. -/
theorem raw_matches_same_line_spans_ordered (regexes : List RPattern)
    (hm : MatchesWF regexes) (hc : CapturesWF regexes) :
    ∀ (fuel : Nat) (chunk : List Char) (offset y : Nat) (l : List RawSpan),
      rawMatchesLine regexes fuel chunk offset y = some l →
      List.Pairwise (fun a b : RawSpan =>
        a.x < b.x ∧ a.x + a.text.length ≤ b.x) l := by
  intro fuel
  induction fuel with
  | zero =>
    intro chunk offset y l h
    exact absurd h (by simp [rawMatchesLine])
  | succ f ih =>
    intro chunk offset y l h
    rcases rawMatchesLine_succ_inv h with ⟨hsel, rfl⟩ |
      ⟨c, rest, hsel, hrec, hcase⟩
    · exact List.Pairwise.nil
    · have hrest := ih _ _ _ _ hrec
      rcases hcase with ⟨hname, rfl⟩ | ⟨hname, rfl⟩
      · exact hrest
      · obtain ⟨hget, hfind, _, _⟩ := selectMatch_spec hsel
        have hpmem : c.pat ∈ regexes := List.get?_mem hget
        obtain ⟨hse, hel⟩ := hm c.pat hpmem chunk c.s c.e hfind
        obtain ⟨hsub1, hsub2⟩ := subMatch_span_bounds hc hpmem hse hel
        rw [List.pairwise_cons]
        refine ⟨?_, hrest⟩
        intro b hb
        have hlb : offset + c.e ≤ b.x :=
          (rawMatchesLine_mem regexes f _ _ _ rest hrec b hb).2
        constructor
        · show offset + c.s + (subMatch chunk c).2 < b.x
          omega
        · show offset + c.s + (subMatch chunk c).2 +
            (subMatch chunk c).1.length ≤ b.x
          omega

theorem litFind_lt {t : Char} :
    ∀ {l : List Char} {i : Nat}, litFind t l = some i → i < l.length := by
  intro l
  induction l with
  | nil => intro i h; simp [litFind] at h
  | cons c rest ih =>
    intro i h
    by_cases hct : c = t
    · simp [litFind, hct] at h
      simp [List.length_cons]
      omega
    · simp [litFind, hct] at h
      obtain ⟨j, hj, hji⟩ := h
      have := ih hj
      simp
      omega

theorem litPat_wf (t : Char) :
    ∀ (chunk : List Char) (s e : Nat),
      (litPat t).findFirst chunk = some (s, e) → s < e ∧ e ≤ chunk.length := by
  intro chunk s e h
  simp [litPat] at h
  obtain ⟨i, hi, hs, he⟩ := h
  have := litFind_lt hi
  omega

theorem matchesWF_ansi_lit : MatchesWF [ansiNoMatch, litPat 'c'] := by
  intro p hp chunk s e h
  rcases List.mem_cons.mp hp with rfl | hp'
  · exact absurd h (by simp [ansiNoMatch])
  · rcases List.mem_cons.mp hp' with rfl | hp''
    · exact litPat_wf 'c' chunk s e h
    · simp at hp''

theorem capturesWF_ansi_lit : CapturesWF [ansiNoMatch, litPat 'c'] := by
  intro p hp t cs ce h
  rcases List.mem_cons.mp hp with rfl | hp'
  · exact absurd h (by simp [ansiNoMatch])
  · rcases List.mem_cons.mp hp' with rfl | hp''
    · exact absurd h (by simp [litPat])
    · simp at hp''

/-- Witness for C4 amended: the exclusion pattern plus the custom literal
regex `c` satisfy both well-formedness hypotheses, and on the line `cc` the
two emitted spans at `x = 0` and `x = 1` are strictly ordered and
non-overlapping. -/
theorem raw_matches_same_line_spans_ordered_witness :
    List.Pairwise (fun a b : RawSpan => a.x < b.x ∧ a.x + a.text.length ≤ b.x)
      [⟨0, 0, "custom", ['c']⟩, ⟨1, 0, "custom", ['c']⟩] :=
  raw_matches_same_line_spans_ordered [ansiNoMatch, litPat 'c']
    matchesWF_ansi_lit capturesWF_ansi_lit 3 ['c', 'c'] 0 0
    [⟨0, 0, "custom", ['c']⟩, ⟨1, 0, "custom", ['c']⟩] rfl

theorem rawMatchesLine_fuel_mono (regexes : List RPattern) :
    ∀ (f f' : Nat) (chunk : List Char) (offset y : Nat) (l : List RawSpan),
      f ≤ f' → rawMatchesLine regexes f chunk offset y = some l →
      rawMatchesLine regexes f' chunk offset y = some l := by
  intro f
  induction f with
  | zero =>
    intro f' chunk offset y l _ h
    exact absurd h (by simp [rawMatchesLine])
  | succ f ih =>
    intro f' chunk offset y l hle h
    cases f' with
    | zero => omega
    | succ f'' =>
      rcases rawMatchesLine_succ_inv h with ⟨hsel, rfl⟩ |
        ⟨c, rest, hsel, hrec, hcase⟩
      · exact rawMatchesLine_succ_none hsel f'' offset y
      · have hrec' := ih f'' (chunk.drop c.e) (offset + c.e) y rest
          (by omega) hrec
        rw [rawMatchesLine_succ_some hsel, hrec']
        rcases hcase with ⟨hname, rfl⟩ | ⟨hname, rfl⟩ <;> simp [hname]

/-- C9 amended: when no effective regex can match the empty string, every
selected match has a strictly positive end offset, the chunk strictly
shrinks, and the per-line extraction loop terminates within
`line length + 1` iterations. -/
theorem raw_matches_line_terminates (regexes : List RPattern)
    (hm : MatchesWF regexes) :
    ∀ (chunk : List Char) (offset y : Nat),
      (rawMatchesLine regexes (chunk.length + 1) chunk offset y).isSome = true := by
  have main : ∀ (N : Nat) (chunk : List Char), chunk.length ≤ N →
      ∀ (offset y : Nat),
        (rawMatchesLine regexes (chunk.length + 1) chunk offset y).isSome
          = true := by
    intro N
    induction N with
    | zero =>
      intro chunk hlen offset y
      have hchunk : chunk = [] := List.eq_nil_of_length_eq_zero (by omega)
      subst hchunk
      cases hsel : selectMatch regexes [] with
      | none => rw [rawMatchesLine_succ_none hsel]; rfl
      | some c =>
        obtain ⟨hget, hfind, _, _⟩ := selectMatch_spec hsel
        obtain ⟨hse, hel⟩ := hm c.pat (List.get?_mem hget) [] c.s c.e hfind
        simp at hel
        exact absurd hse (by omega)
    | succ N ih =>
      intro chunk hlen offset y
      cases hsel : selectMatch regexes chunk with
      | none => rw [rawMatchesLine_succ_none hsel]; rfl
      | some c =>
        obtain ⟨hget, hfind, _, _⟩ := selectMatch_spec hsel
        obtain ⟨hse, hel⟩ := hm c.pat (List.get?_mem hget) chunk c.s c.e hfind
        have hlen' : (chunk.drop c.e).length = chunk.length - c.e := by simp
        have hsome := ih (chunk.drop c.e) (by omega) (offset + c.e) y
        obtain ⟨rest, hrest⟩ := Option.isSome_iff_exists.mp hsome
        have hmono := rawMatchesLine_fuel_mono regexes
          ((chunk.drop c.e).length + 1) chunk.length (chunk.drop c.e)
          (offset + c.e) y rest (by omega) hrest
        rw [rawMatchesLine_succ_some hsel, hmono]
        by_cases hname : c.pat.name = "ansi_colors" <;> simp [hname]
  intro chunk offset y
  exact main chunk.length chunk (le_refl _) offset y

/-- Witness for C9 amended: the exclusion pattern and the custom literal
regex `c` never match the empty string, and on the line `cc` the loop indeed
terminates within `length + 1` iterations. -/
theorem raw_matches_line_terminates_witness :
    (rawMatchesLine [ansiNoMatch, litPat 'c'] (['c', 'c'].length + 1)
      ['c', 'c'] 0 0).isSome = true :=
  raw_matches_line_terminates [ansiNoMatch, litPat 'c'] matchesWF_ansi_lit
    ['c', 'c'] 0 0

/-! ### Worked examples and refuting instances -/

/-- C6: the worked examples of `make_hints` from the specification and the
repository's own tests, for the alphabets `abcd` and `ab`. -/
theorem make_hints_worked_examples :
    makeHints ['a', 'b', 'c', 'd'] 3 = some [['a'], ['b'], ['c']] ∧
    makeHints ['a', 'b', 'c', 'd'] 6 =
      some [['a'], ['b'], ['c'], ['d', 'a'], ['d', 'b'], ['d', 'c']] ∧
    makeHints ['a', 'b', 'c', 'd'] 8 =
      some [['a'], ['b'], ['c', 'a'], ['c', 'b'], ['d', 'a'], ['d', 'b'],
        ['d', 'c'], ['d', 'd']] ∧
    makeHints ['a', 'b', 'c', 'd'] 13 =
      some [['a'], ['b', 'a'], ['b', 'b'], ['b', 'c'], ['b', 'd'], ['c', 'a'],
        ['c', 'b'], ['c', 'c'], ['c', 'd'], ['d', 'a'], ['d', 'b'], ['d', 'c'],
        ['d', 'd']] ∧
    makeHints ['a', 'b'] 4 =
      some [['a', 'a'], ['a', 'b'], ['b', 'a'], ['b', 'b']] :=
  ⟨rfl, rfl, rfl, rfl, rfl⟩

/-- C2 counterexample: for the nine-letter catalog alphabet `qwerty-homerow`
and `n = 589`, `make_hints` falls back to the `longest` alphabet, whose
letter `~` occurs twice; one occurrence survives as the standalone hint `~`
while the other becomes the leading letter of two-letter hints such as `~a`,
so a returned non-empty hint is a strict prefix of another returned hint. -/
theorem make_hints_not_prefix_free_counterexample :
    (makeHints qwertyHomerow 589).isSome = true ∧
    ¬ UnambiguousHints ((makeHints qwertyHomerow 589).getD []) := by
  refine ⟨by decide, fun h => ?_⟩
  have h1 : ['~'] ∈ (makeHints qwertyHomerow 589).getD [] := by decide
  have h2 : ['~', 'a'] ∈ (makeHints qwertyHomerow 589).getD [] := by decide
  exact h ['~'] h1 ['~', 'a'] h2 (by decide) (by decide)

/-- C4 counterexample: with the custom regexes `a(b*)` and `c` on the line
`ac`, the first selected match is `a` whose capture group 1 is empty and
located at the end of the match, so an empty span is emitted at `x = 1`; the
scan then advances to `c` and emits a second span at the same `x = 1`,
refuting the strict increase of `x` along same-line emission order. -/
theorem raw_matches_same_x_counterexample :
    rawMatchesLine [ansiNoMatch, abStarPat, litPat 'c'] 3 ['a', 'c'] 0 0 =
      some [⟨1, 0, "custom", []⟩, ⟨1, 0, "custom", ['c']⟩] ∧
    ¬ List.Pairwise (fun a b : RawSpan => a.x < b.x)
      [(⟨1, 0, "custom", []⟩ : RawSpan), ⟨1, 0, "custom", ['c']⟩] := by
  refine ⟨rfl, fun h => ?_⟩
  have := (List.pairwise_cons.mp h).1 ⟨1, 0, "custom", ['c']⟩ (by simp)
  exact Nat.lt_irrefl 1 this

/-- C9 counterexample: the syntactically valid custom regex `()` matches the
empty string at the start of every chunk, so on the line `abc` the selected
match has end offset `0` (not strictly positive), the chunk never shrinks,
and the extraction loop never terminates (the fuel-indexed embedding returns
`none` for every fuel, here shown at the canonical fuel `length + 1`). -/
theorem extraction_loop_divergence_counterexample :
    (selectMatch [ansiNoMatch, emptyPat] ['a', 'b', 'c']).map
      (fun c => (c.idx, c.s, c.e)) = some (1, 0, 0) ∧
    rawMatchesLine [ansiNoMatch, emptyPat] 4 ['a', 'b', 'c'] 0 0 = none :=
  ⟨rfl, rfl⟩

/-- Helper: with the empty-matching custom regex `()` in the effective list,
the per-line extraction loop diverges on every chunk: no amount of fuel makes
it return. -/
theorem rawMatchesLine_emptyPat_none :
    ∀ (fuel : Nat) (chunk : List Char) (offset y : Nat),
      rawMatchesLine [ansiNoMatch, emptyPat] fuel chunk offset y = none := by
  intro fuel
  induction fuel with
  | zero => intro chunk offset y; rfl
  | succ f ih =>
    intro chunk offset y
    have hstep : rawMatchesLine [ansiNoMatch, emptyPat] (f + 1) chunk offset y =
        (match rawMatchesLine [ansiNoMatch, emptyPat] f chunk offset y with
          | none => none
          | some rest => some (⟨offset, y, "custom", []⟩ :: rest)) := rfl
    rw [hstep, ih]

/-- C10: in `render_span` with trailing hint alignment, the hint overlay
offset for a non-focused span is the `usize` subtraction
`text.len() - hint.len()`, which succeeds exactly when the span text is at
least as long as its hint and underflows (a Rust panic/overflow error)
otherwise, for instance for a one-character span with a two-character
hint. -/
theorem render_span_trailing_offset (text hint : List Char) :
    (renderHintOffset .trailing text hint =
      if hint.length ≤ text.length then some (text.length - hint.length)
      else none) ∧
    renderHintOffset .trailing ['c'] ['a', 'b'] = none := by
  constructor
  · simp [renderHintOffset, usizeSub]
  · rfl

/-- C8 amended: over a buffer with exactly two URL spans (hints `a` and `b`),
pressing `a` and then `Y` returns a Selection with the first URL's text, the
default output destination, and `uppercased = false`: the single key `a`
completes a hint and returns immediately, so the subsequent `Y` is never
read. -/
theorem listen_hint_key_selects_first_url (t1 t2 : List Char)
    (d : OutputDestination) :
    listen [⟨6, 0, "url", t1, ['a']⟩, ⟨30, 0, "url", t2, ['b']⟩]
      (buildLookupTrie [⟨6, 0, "url", t1, ['a']⟩, ⟨30, 0, "url", t2, ['b']⟩])
      false false d [.char 'a', .char 'Y'] =
      .select ⟨t1, false, d⟩ := rfl

/-- C8 counterexample: on a concrete two-URL buffer, the key sequence `a`
then `Y` returns the first URL with `uppercased = false`, not
`uppercased = true` as claimed. -/
theorem listen_hint_key_uppercase_counterexample :
    listen [⟨6, 0, "url", ['u', 'r', 'l', '1'], ['a']⟩,
        ⟨30, 0, "url", ['u', 'r', 'l', '2'], ['b']⟩]
      (buildLookupTrie [⟨6, 0, "url", ['u', 'r', 'l', '1'], ['a']⟩,
        ⟨30, 0, "url", ['u', 'r', 'l', '2'], ['b']⟩])
      false false .tmux [.char 'a', .char 'Y'] =
      .select ⟨['u', 'r', 'l', '1'], false, .tmux⟩ ∧
    listen [⟨6, 0, "url", ['u', 'r', 'l', '1'], ['a']⟩,
        ⟨30, 0, "url", ['u', 'r', 'l', '2'], ['b']⟩]
      (buildLookupTrie [⟨6, 0, "url", ['u', 'r', 'l', '1'], ['a']⟩,
        ⟨30, 0, "url", ['u', 'r', 'l', '2'], ['b']⟩])
      false false .tmux [.char 'a', .char 'Y'] ≠
      .select ⟨['u', 'r', 'l', '1'], true, .tmux⟩ := by
  exact ⟨rfl, by decide⟩

end Copyrat
